import Mathlib

/-!
# Decision tree (`decisiontree.cpp`): embedding and verified properties

The C++ program trains a binary decision tree over a row-major `int` feature matrix and
`int` labels, and classifies a sample by walking the tree.

Modelling conventions
* `int` values, indices and counters are `Int` (no wrap-around is modelled: every counter is
  bounded by the number of rows of the range).
* An array (`int*`, or a variable-length local array) is a `List Int`; a read outside the list,
  or the write `count[y[i]]++` with a label outside `{0,1}`, is undefined behaviour in C++.
* A `double` is `Dbl`: a rational, or one of the special values NaN, +inf, -inf with the
  IEEE-754 rules for them (`0.0/0` is NaN, NaN compares false with everything).  `Dbl.add`,
  `Dbl.mul` and `Dbl.div` give the exact result of an operation, before any rounding.
* `depth` / `max_depth` is a `Nat` (the interface asks for a non-negative depth); `build_tree`
  recurses structurally on it.

The source is embedded twice, with the same text and two readings of what C++ leaves open.
* The functions `calculate_gini`, ..., `fit`, `predict` of the first part compute with the exact
  results and return `none` at a read outside an array: they describe the runs of the program
  that stay inside the arrays, with exact arithmetic.
* The functions `Platform.calculate_gini`, ..., `Platform.fit` take a `Platform`, which fixes
  how the finite result of every operation on doubles is rounded (`rnd`) and which value a read
  outside an array finds (`outside`).  They return a result on every input with labels over
  `{0,1}`; a statement proved for every platform holds for the compiled program whatever the
  rounding and the memory around the arrays are.  `Platform.binary64 w` is the platform of an
  IEEE-754 machine (round to nearest, ties to even, 53 significant bits) on which a read
  outside an array finds `w`; `Platform.exact w` computes without rounding.
-/

namespace DecisionTree

/-! ## Doubles -/

/-- A C++ `double`: NaN, the two infinities, or a finite value, kept as a rational. -/
inductive Dbl where
  | nan : Dbl
  | pinf : Dbl
  | ninf : Dbl
  | fin : ℚ → Dbl
  deriving DecidableEq

namespace Dbl

/-- Conversion `int -> double` (`static_cast<double>(n)` and the implicit promotions). -/
def ofInt (n : Int) : Dbl := fin (n : ℚ)

/-- Unary minus. -/
def neg : Dbl → Dbl
  | nan => nan
  | pinf => ninf
  | ninf => pinf
  | fin a => fin (-a)

/-- The exact sum `a + b` of doubles, with the IEEE-754 rules for NaN and the infinities;
`Platform.add` rounds it. -/
def add : Dbl → Dbl → Dbl
  | fin a, fin b => fin (a + b)
  | nan, _ => nan
  | _, nan => nan
  | pinf, ninf => nan
  | ninf, pinf => nan
  | pinf, _ => pinf
  | ninf, _ => ninf
  | fin _, pinf => pinf
  | fin _, ninf => ninf

/-- The exact difference `a - b` of doubles; `Platform.sub` rounds it. -/
def sub (a b : Dbl) : Dbl := add a (neg b)

/-- The infinity with the sign of `a * b` for a non-zero rational `a` and an infinity of sign
`pos`; NaN when `a = 0`. -/
def infTimes (a : ℚ) (pos : Bool) : Dbl :=
  if a = 0 then nan else if (0 < a) = pos then pinf else ninf

/-- The exact product `a * b` of doubles, with the IEEE-754 rules for NaN and the infinities;
`Platform.mul` rounds it. -/
def mul : Dbl → Dbl → Dbl
  | fin a, fin b => fin (a * b)
  | nan, _ => nan
  | _, nan => nan
  | fin a, pinf => infTimes a true
  | fin a, ninf => infTimes a false
  | pinf, fin b => infTimes b true
  | ninf, fin b => infTimes b false
  | pinf, pinf => pinf
  | ninf, ninf => pinf
  | pinf, ninf => ninf
  | ninf, pinf => ninf

/-- The exact quotient `a / b` of doubles: `0.0/0` is NaN, `x/0` with `x ≠ 0` is an infinity;
`Platform.div` rounds it. -/
def div : Dbl → Dbl → Dbl
  | fin a, fin b =>
      if b = 0 then (if a = 0 then nan else if 0 < a then pinf else ninf) else fin (a / b)
  | nan, _ => nan
  | _, nan => nan
  | fin _, pinf => fin 0
  | fin _, ninf => fin 0
  | pinf, fin b => if 0 ≤ b then pinf else ninf
  | ninf, fin b => if 0 ≤ b then ninf else pinf
  | pinf, pinf => nan
  | pinf, ninf => nan
  | ninf, pinf => nan
  | ninf, ninf => nan

/-- Comparison `a < b` of doubles (false when either side is NaN). -/
def lt : Dbl → Dbl → Bool
  | fin a, fin b => decide (a < b)
  | nan, _ => false
  | _, nan => false
  | ninf, ninf => false
  | ninf, _ => true
  | pinf, _ => false
  | fin _, pinf => true
  | fin _, ninf => false

/-- Comparison `a > b` of doubles. -/
def gt (a b : Dbl) : Bool := lt b a

/-- Comparison `a == b` of doubles (false when either side is NaN). -/
def beq : Dbl → Dbl → Bool
  | fin a, fin b => decide (a = b)
  | pinf, pinf => true
  | ninf, ninf => true
  | _, _ => false

/-- Comparison `a <= b` of doubles (false when either side is NaN). -/
def le (a b : Dbl) : Bool := lt a b || beq a b

end Dbl

/-! ## Memory reads and loops -/

/-- The read `a[k]` of an `int` array: `none` outside the array. -/
def rd (a : List Int) (k : Int) : Option Int :=
  if 0 ≤ k then a[k.toNat]? else none

/-- Runs `n` iterations of a loop body on the indices `i, i+1, ...`, threading the state;
`none` as soon as an iteration fails. -/
def loopFrom {σ : Type} (body : σ → Int → Option σ) : Nat → Int → σ → Option σ
  | 0, _, s => some s
  | n + 1, i, s =>
    match body s i with
    | none => none
    | some s' => loopFrom body n (i + 1) s'

/-- The loop `for (int i = start; i <= end; ++i) body`. -/
def forLoop {σ : Type} (start end_ : Int) (body : σ → Int → Option σ) (s : σ) : Option σ :=
  loopFrom body (end_ + 1 - start).toNat start s

/-! ## The tree -/

/-- A node as `build_tree` leaves it: `leaf v` is a `Node` with `is_leaf = true`, `value = v`
and no children; `decision f t l r` is a `Node` with `is_leaf = false`, `feature_index = f`,
`threshold = t` and the two children `left = l`, `right = r`. -/
inductive Node where
  | leaf (value : Dbl) : Node
  | decision (feature_index : Int) (threshold : Dbl) (left right : Node) : Node
  deriving DecidableEq

/-- One iteration of `count[y[i]]++` on the pair `(count[0], count[1])`. -/
def countStep (y : List Int) (count : Int × Int) (i : Int) : Option (Int × Int) :=
  match rd y i with
  | none => none
  | some l =>
    if l = 0 then some (count.1 + 1, count.2)
    else if l = 1 then some (count.1, count.2 + 1)
    else none

/-- The counting loop of `calculate_gini` and `build_tree`:
`int count[2] = {0, 0}; for (i = start; i <= end; ++i) count[y[i]]++;`. -/
def countLabels (y : List Int) (start end_ : Int) : Option (Int × Int) :=
  forLoop start end_ (countStep y) (0, 0)

/-- `DecisionTree::calculate_gini`. -/
def calculate_gini (y : List Int) (start end_ : Int) : Option Dbl :=
  match countLabels y start end_ with
  | none => none
  | some count =>
    let p0 := Dbl.div (Dbl.ofInt count.1) (Dbl.ofInt (end_ - start + 1))
    let p1 := Dbl.div (Dbl.ofInt count.2) (Dbl.ofInt (end_ - start + 1))
    some (Dbl.sub (Dbl.ofInt 1) (Dbl.add (Dbl.mul p0 p0) (Dbl.mul p1 p1)))

/-- The test `X[i * num_features + feature_index] <= threshold`. -/
def goesLeft (X : List Int) (i num_features feature_index : Int) (threshold : Dbl) :
    Option Bool :=
  match rd X (i * num_features + feature_index) with
  | none => none
  | some v => some (Dbl.le (Dbl.ofInt v) threshold)

/-- One iteration of a loop that counts the rows going left (and, for
`calculate_information_gain`, those going right). -/
def sideCountStep (X : List Int) (num_features feature_index : Int) (threshold : Dbl)
    (c : Int × Int) (i : Int) : Option (Int × Int) :=
  match goesLeft X i num_features feature_index threshold with
  | none => none
  | some true => some (c.1 + 1, c.2)
  | some false => some (c.1, c.2 + 1)

/-- One iteration of the loop of `calculate_information_gain` that copies `y[i]` to the end of
`left_y` or of `right_y`. -/
def sideLabelStep (X y : List Int) (num_features feature_index : Int) (threshold : Dbl)
    (s : List Int × List Int) (i : Int) : Option (List Int × List Int) :=
  match goesLeft X i num_features feature_index threshold with
  | none => none
  | some b =>
    match rd y i with
    | none => none
    | some l => if b then some (s.1 ++ [l], s.2) else some (s.1, s.2 ++ [l])

/-- `DecisionTree::calculate_information_gain`. -/
def calculate_information_gain (X y : List Int) (start end_ feature_index : Int)
    (threshold : Dbl) (num_features : Int) : Option Dbl :=
  match forLoop start end_ (sideCountStep X num_features feature_index threshold) (0, 0) with
  | none => none
  | some (left_count, right_count) =>
    match forLoop start end_ (sideLabelStep X y num_features feature_index threshold)
        ([], []) with
    | none => none
    | some (left_y, right_y) =>
      match calculate_gini left_y 0 (left_count - 1) with
      | none => none
      | some left_gini =>
        match calculate_gini right_y 0 (right_count - 1) with
        | none => none
        | some right_gini =>
          let p_left := Dbl.div (Dbl.ofInt left_count) (Dbl.ofInt (end_ - start + 1))
          let p_right := Dbl.div (Dbl.ofInt right_count) (Dbl.ofInt (end_ - start + 1))
          match calculate_gini y start end_ with
          | none => none
          | some g =>
            some (Dbl.sub g (Dbl.add (Dbl.mul p_left left_gini) (Dbl.mul p_right right_gini)))

/-- The three output parameters of `best_split`. -/
structure Split where
  best_feature_index : Int
  best_threshold : Dbl
  best_gain : Dbl
  deriving DecidableEq

/-- The body of the inner loop of `best_split`, for the candidate of row `i` and column
`feature_index`. -/
def splitStep (X y : List Int) (start end_ num_features feature_index : Int)
    (best : Split) (i : Int) : Option Split :=
  match rd X (i * num_features + feature_index) with
  | none => none
  | some v =>
    let threshold := Dbl.ofInt v
    match calculate_information_gain X y start end_ feature_index threshold num_features with
    | none => none
    | some gain =>
      if Dbl.gt gain best.best_gain then some ⟨feature_index, threshold, gain⟩ else some best

/-- `DecisionTree::best_split`, returning its three output parameters. -/
def best_split (X y : List Int) (start end_ num_features : Int) : Option Split :=
  forLoop 0 (num_features - 1)
    (fun best feature_index =>
      forLoop start end_ (splitStep X y start end_ num_features feature_index) best)
    ⟨-1, Dbl.fin 0, Dbl.fin (-1)⟩

/-- One iteration of the loop of `build_tree` that counts `left_count`. -/
def leftCountStep (X : List Int) (num_features feature_index : Int) (threshold : Dbl)
    (left_count : Int) (i : Int) : Option Int :=
  match goesLeft X i num_features feature_index threshold with
  | none => none
  | some b => if b then some (left_count + 1) else some left_count

/-- The inner loop `for (j = 0; j < num_features; ++j) dst[.. + j] = X[i * num_features + j]`:
appends row `i` of `X` to `dst`. -/
def copyRow (X : List Int) (num_features i : Int) (dst : List Int) : Option (List Int) :=
  forLoop 0 (num_features - 1)
    (fun d j =>
      match rd X (i * num_features + j) with
      | none => none
      | some v => some (d ++ [v]))
    dst

/-- The four working arrays `left_X, left_y, right_X, right_y` of `build_tree`. -/
structure Parts where
  left_X : List Int
  left_y : List Int
  right_X : List Int
  right_y : List Int
  deriving DecidableEq

/-- One iteration of the partition loop of `build_tree`. -/
def partStep (X y : List Int) (num_features feature_index : Int) (threshold : Dbl)
    (p : Parts) (i : Int) : Option Parts :=
  match goesLeft X i num_features feature_index threshold with
  | none => none
  | some true =>
    match copyRow X num_features i p.left_X with
    | none => none
    | some lx =>
      match rd y i with
      | none => none
      | some l => some ⟨lx, p.left_y ++ [l], p.right_X, p.right_y⟩
  | some false =>
    match copyRow X num_features i p.right_X with
    | none => none
    | some rx =>
      match rd y i with
      | none => none
      | some l => some ⟨p.left_X, p.left_y, rx, p.right_y ++ [l]⟩

/-- The leaf value `(count[0] > count[1]) ? 0 : 1`. -/
def leafValue (count : Int × Int) : Dbl :=
  if count.1 > count.2 then Dbl.ofInt 0 else Dbl.ofInt 1

/-- `DecisionTree::build_tree`. -/
def build_tree (X y : List Int) (start end_ : Int) (depth : Nat) (num_features : Int) :
    Option Node :=
  match countLabels y start end_ with
  | none => none
  | some count =>
    match depth with
    | 0 => some (Node.leaf (leafValue count))
    | d + 1 =>
      if count.1 = 0 ∨ count.2 = 0 then some (Node.leaf (leafValue count))
      else
        match best_split X y start end_ num_features with
        | none => none
        | some best =>
          if Dbl.beq best.best_gain (Dbl.fin 0) then some (Node.leaf (leafValue count))
          else
            match forLoop start end_
                (leftCountStep X num_features best.best_feature_index best.best_threshold)
                0 with
            | none => none
            | some left_count =>
              let right_count := end_ - start + 1 - left_count
              match forLoop start end_
                  (partStep X y num_features best.best_feature_index best.best_threshold)
                  ⟨[], [], [], []⟩ with
              | none => none
              | some p =>
                match build_tree p.left_X p.left_y 0 (left_count - 1) d num_features with
                | none => none
                | some l =>
                  match build_tree p.right_X p.right_y 0 (right_count - 1) d num_features with
                  | none => none
                  | some r =>
                    some (Node.decision best.best_feature_index best.best_threshold l r)

/-- `DecisionTree::predict_single`. -/
def predict_single : Node → List Int → Int → Option Dbl
  | Node.leaf value, _, _ => some value
  | Node.decision feature_index threshold left right, X, num_features =>
    match rd X feature_index with
    | none => none
    | some v =>
      if Dbl.le (Dbl.ofInt v) threshold then predict_single left X num_features
      else predict_single right X num_features

end DecisionTree

/-- The object state of `class DecisionTree`: the `root` pointer (`none` is `NULL`). -/
structure DecisionTree where
  root : Option DecisionTree.Node
  deriving DecidableEq

namespace DecisionTree

/-- The constructor `DecisionTree() : root(NULL)`. -/
def new : DecisionTree := ⟨none⟩

/-- `DecisionTree::fit`: the object after the call. -/
def fit (_self : DecisionTree) (X y : List Int) (num_samples num_features : Int)
    (max_depth : Nat) : Option DecisionTree :=
  match build_tree X y 0 (num_samples - 1) max_depth num_features with
  | none => none
  | some r => some ⟨some r⟩

/-- `DecisionTree::predict`. -/
def predict (self : DecisionTree) (X : List Int) (num_features : Int) : Option Dbl :=
  match self.root with
  | none => none
  | some root => predict_single root X num_features

/-- The feature matrix `X` of `main`. -/
def mainX : List Int :=
  [24, 0, 0, 30, 1, 1, 36, 0, 1, 36, 0, 0, 42, 0, 0, 44, 1, 1, 46, 1, 0, 47, 1, 1, 47, 0, 1,
   51, 1, 1]

/-- The label vector `y` of `main`. -/
def mainY : List Int := [0, 1, 1, 0, 0, 1, 0, 1, 0, 1]

/-! ## Measures and predicates on trees -/

/-- Height of a tree: the largest number of decision nodes on a path from the root to a leaf. -/
def Node.height : Node → Nat
  | Node.leaf _ => 0
  | Node.decision _ _ l r => max l.height r.height + 1

/-- Number of rows `i` of the range `start..end_` whose label `y[i]` is the class `c`. -/
def classCount (y : List Int) (start end_ : Int) (c : Int) : Nat :=
  (List.range (end_ + 1 - start).toNat).countP (fun (k : Nat) => decide (rd y (start + (k : Int)) = some c))

/-- Number of rows of the range `start..end_`. -/
def rangeSize (start end_ : Int) : Int := end_ - start + 1

/-- The depths of the leaves of a tree, the root being at depth 0. -/
def Node.leafDepths : Node → List Nat
  | Node.leaf _ => [0]
  | Node.decision _ _ l r => (l.leafDepths ++ r.leafDepths).map (fun k => k + 1)

/-- The values held by the leaves of a tree. -/
def Node.leafValues : Node → List Dbl
  | Node.leaf v => [v]
  | Node.decision _ _ l r => l.leafValues ++ r.leafValues

/-- Every decision node of the tree tests a column `feature_index` with
`0 ≤ feature_index < num_features`. -/
def Node.featuresBelow (num_features : Int) : Node → Prop
  | Node.leaf _ => True
  | Node.decision f _ l r =>
    0 ≤ f ∧ f < num_features ∧ l.featuresBelow num_features ∧ r.featuresBelow num_features

/-- The majority label of a range holding `count0` labels 0 and `count1` labels 1 when a tie
goes to class 0, as the specification words the rule. -/
def majorityTiesToZero (count0 count1 : Nat) : Dbl :=
  if count1 > count0 then Dbl.ofInt 1 else Dbl.ofInt 0

/-- The majority label of a range holding `count0` labels 0 and `count1` labels 1 when a tie
goes to class 1. -/
def majorityTiesToOne (count0 count1 : Nat) : Dbl :=
  if count0 > count1 then Dbl.ofInt 0 else Dbl.ofInt 1

/-- `DecisionTree::build_tree` with `depth` an `int` as in the source, run with a bound `fuel`
on the number of nested calls: `none` when the bound is reached, `some none` when the call has
undefined behaviour, `some (some t)` when it returns the node `t`. -/
def build_tree_fuel : Nat → List Int → List Int → Int → Int → Int → Int → Option (Option Node)
  | 0, _, _, _, _, _, _ => none
  | fuel + 1, X, y, start, end_, depth, num_features =>
    match countLabels y start end_ with
    | none => some none
    | some count =>
      if depth = 0 ∨ count.1 = 0 ∨ count.2 = 0 then some (some (Node.leaf (leafValue count)))
      else
        match best_split X y start end_ num_features with
        | none => some none
        | some best =>
          if Dbl.beq best.best_gain (Dbl.fin 0) then some (some (Node.leaf (leafValue count)))
          else
            match forLoop start end_
                (leftCountStep X num_features best.best_feature_index best.best_threshold)
                0 with
            | none => some none
            | some left_count =>
              let right_count := end_ - start + 1 - left_count
              match forLoop start end_
                  (partStep X y num_features best.best_feature_index best.best_threshold)
                  ⟨[], [], [], []⟩ with
              | none => some none
              | some p =>
                match build_tree_fuel fuel p.left_X p.left_y 0 (left_count - 1) (depth - 1)
                    num_features with
                | none => none
                | some none => some none
                | some (some l) =>
                  match build_tree_fuel fuel p.right_X p.right_y 0 (right_count - 1)
                      (depth - 1) num_features with
                  | none => none
                  | some none => some none
                  | some (some r) =>
                    some (some
                      (Node.decision best.best_feature_index best.best_threshold l r))

/-- The `n` consecutive indices `i, i+1, ...`, in order. -/
def idxFrom (i : Int) : Nat → List Int
  | 0 => []
  | n + 1 => i :: idxFrom (i + 1) n

/-- The row indices `start, start+1, ..., end_` of a range, in order. -/
def rangeIdx (start end_ : Int) : List Int := idxFrom start (end_ + 1 - start).toNat

/-- Row `i` of the row-major matrix `X`: its entries `X[i * num_features + j]` for
`0 ≤ j < num_features`. -/
def rowAt (X : List Int) (num_features i : Int) : List Int :=
  (rangeIdx 0 (num_features - 1)).filterMap (fun j => rd X (i * num_features + j))

/-- The rows of the range whose value in column `feature_index` is `<= threshold`, in the order
of the range. -/
def leftRows (X : List Int) (start end_ num_features feature_index : Int) (threshold : Dbl) :
    List Int :=
  (rangeIdx start end_).filter
    (fun i => decide (goesLeft X i num_features feature_index threshold = some true))

/-- The rows of the range whose value in column `feature_index` is `> threshold`, in the order
of the range. -/
def rightRows (X : List Int) (start end_ num_features feature_index : Int) (threshold : Dbl) :
    List Int :=
  (rangeIdx start end_).filter
    (fun i => decide (goesLeft X i num_features feature_index threshold = some false))

/-- The gain that `best_split` computes for the candidate of column `f` and row `i`, whose
threshold is `X[i * num_features + f]`. -/
def candidateGain (X y : List Int) (start end_ num_features f i : Int) : Option Dbl :=
  match rd X (i * num_features + f) with
  | none => none
  | some v => calculate_information_gain X y start end_ f (Dbl.ofInt v) num_features

/-- Column `f` and row `i` make a candidate of `best_split` on the range. -/
def IsCandidate (start end_ num_features f i : Int) : Prop :=
  0 ≤ f ∧ f < num_features ∧ start ≤ i ∧ i ≤ end_

/-- The candidate `(f', i')` is examined by `best_split` before the candidate `(f, i)`: columns
in increasing order and, within a column, rows in increasing order. -/
def Before (f' i' f i : Int) : Prop := f' < f ∨ (f' = f ∧ i' < i)

/-- The state of `best_split` when exactly the candidates before `(f, k)` have been examined:
no examined candidate has a gain greater than `best_gain`, and `best` is either the initial value
or the first examined candidate whose gain is `best_gain`. -/
def SplitInv (X y : List Int) (start end_ num_features f k : Int) (best : Split) : Prop :=
  (∀ f' i', IsCandidate start end_ num_features f' i' → Before f' i' f k →
      ∃ g, candidateGain X y start end_ num_features f' i' = some g ∧
        Dbl.gt g best.best_gain = false) ∧
  (best = ⟨-1, Dbl.fin 0, Dbl.fin (-1)⟩ ∨
    ∃ f0 i0 v0, IsCandidate start end_ num_features f0 i0 ∧ Before f0 i0 f k ∧
      rd X (i0 * num_features + f0) = some v0 ∧
      candidateGain X y start end_ num_features f0 i0 = some best.best_gain ∧
      best.best_feature_index = f0 ∧ best.best_threshold = Dbl.ofInt v0 ∧
      Dbl.gt best.best_gain (Dbl.fin (-1)) = true ∧
      ∀ f' i', IsCandidate start end_ num_features f' i' → Before f' i' f0 i0 →
        ∃ g, candidateGain X y start end_ num_features f' i' = some g ∧
          Dbl.beq g best.best_gain = false)

/-- Number of leaves of a tree. -/
def Node.leafCount : Node → Nat
  | Node.leaf _ => 1
  | Node.decision _ _ l r => l.leafCount + r.leafCount

/-- Number of nodes of a tree, decision nodes and leaves. -/
def Node.nodeCount : Node → Nat
  | Node.leaf _ => 1
  | Node.decision _ _ l r => l.nodeCount + r.nodeCount + 1

/-! ## The platform: rounding of doubles and reads outside an array

The definitions above compute finite doubles exactly and stop at a read outside an array.  The
definitions of this section follow the same source text and take from a `Platform` what the source
leaves to the machine: how the finite result of a `double` operation is rounded, and which value a
read outside an array finds.  A statement proved for every platform holds for IEEE-754 binary64
with any content of the memory around the arrays. -/

/-- The two things the platform decides: `rnd` rounds the exact finite result of an operation on
doubles (the identity is exact arithmetic, round-to-nearest of binary64 is the rounding of an
IEEE-754 machine; every operation rounds its own result), and `outside a k` is the value that
the read `a[k]` finds when `k` is outside the array `a`. -/
structure Platform where
  rnd : ℚ → ℚ
  outside : List Int → Int → Int

/-- Every row `i` of the range `start..end_` has a label `y[i]` that is 0 or 1. -/
def LabelsOk (y : List Int) (start end_ : Int) : Prop :=
  ∀ i, start ≤ i → i ≤ end_ → rd y i = some 0 ∨ rd y i = some 1

/-- Runs `n` iterations of a loop body that cannot fail on the indices `i, i+1, ...`. -/
def loopT {σ : Type} (body : σ → Int → σ) : Nat → Int → σ → σ
  | 0, _, s => s
  | n + 1, i, s => loopT body n (i + 1) (body s i)

/-- The loop `for (int i = start; i <= end; ++i) body` for a body that cannot fail. -/
def forT {σ : Type} (start end_ : Int) (body : σ → Int → σ) (s : σ) : σ :=
  loopT body (end_ + 1 - start).toNat start s

namespace Platform

/-- The platform with exact arithmetic on which every read outside an array finds `w`. -/
def exact (w : Int) : Platform := ⟨fun q => q, fun _ _ => w⟩

/-- The rounding moves a value between -4 and 4 by at most 1/1024.  IEEE-754 binary64 moves
such a value by at most 2^-51, in every rounding mode; the values `calculate_gini` and
`calculate_information_gain` compute on labels over `{0,1}` lie between -2 and 2. -/
def Accurate (P : Platform) : Prop := ∀ x : ℚ, |x| ≤ 4 → |P.rnd x - x| ≤ 1 / 1024

/-- Rounding of the result of an operation: a finite value is rounded, NaN and the infinities
stay. -/
def round (P : Platform) : Dbl → Dbl
  | Dbl.fin q => Dbl.fin (P.rnd q)
  | d => d

/-- Addition `a + b` of doubles on the platform. -/
def add (P : Platform) (a b : Dbl) : Dbl := P.round (Dbl.add a b)

/-- Subtraction `a - b` of doubles on the platform. -/
def sub (P : Platform) (a b : Dbl) : Dbl := P.round (Dbl.sub a b)

/-- Multiplication `a * b` of doubles on the platform. -/
def mul (P : Platform) (a b : Dbl) : Dbl := P.round (Dbl.mul a b)

/-- Division `a / b` of doubles on the platform. -/
def div (P : Platform) (a b : Dbl) : Dbl := P.round (Dbl.div a b)

/-- The read `a[k]` on the platform: the entry when `k` is inside the array, the value the
platform finds there otherwise. -/
def rd (P : Platform) (a : List Int) (k : Int) : Int :=
  match DecisionTree.rd a k with
  | some v => v
  | none => P.outside a k

/-- `DecisionTree::calculate_gini` on the platform. -/
def calculate_gini (P : Platform) (y : List Int) (start end_ : Int) : Option Dbl :=
  match countLabels y start end_ with
  | none => none
  | some count =>
    let p0 := P.div (Dbl.ofInt count.1) (Dbl.ofInt (end_ - start + 1))
    let p1 := P.div (Dbl.ofInt count.2) (Dbl.ofInt (end_ - start + 1))
    some (P.sub (Dbl.ofInt 1) (P.add (P.mul p0 p0) (P.mul p1 p1)))

/-- The test `X[i * num_features + feature_index] <= threshold` on the platform. -/
def goesLeft (P : Platform) (X : List Int) (num_features feature_index : Int) (threshold : Dbl)
    (i : Int) : Bool :=
  Dbl.le (Dbl.ofInt (P.rd X (i * num_features + feature_index))) threshold

/-- One iteration of the first loop of `calculate_information_gain`. -/
def sideCountStep (P : Platform) (X : List Int) (num_features feature_index : Int)
    (threshold : Dbl) (c : Int × Int) (i : Int) : Int × Int :=
  if P.goesLeft X num_features feature_index threshold i then (c.1 + 1, c.2) else (c.1, c.2 + 1)

/-- One iteration of the second loop of `calculate_information_gain`: `y[i]` goes to the end of
`left_y` or of `right_y`. -/
def sideLabelStep (P : Platform) (X y : List Int) (num_features feature_index : Int)
    (threshold : Dbl) (s : List Int × List Int) (i : Int) : Option (List Int × List Int) :=
  match DecisionTree.rd y i with
  | none => none
  | some l =>
    if P.goesLeft X num_features feature_index threshold i then some (s.1 ++ [l], s.2)
    else some (s.1, s.2 ++ [l])

/-- `DecisionTree::calculate_information_gain` on the platform. -/
def calculate_information_gain (P : Platform) (X y : List Int) (start end_ feature_index : Int)
    (threshold : Dbl) (num_features : Int) : Option Dbl :=
  match forT start end_ (P.sideCountStep X num_features feature_index threshold) (0, 0) with
  | (left_count, right_count) =>
    match forLoop start end_ (P.sideLabelStep X y num_features feature_index threshold)
        ([], []) with
    | none => none
    | some (left_y, right_y) =>
      match P.calculate_gini left_y 0 (left_count - 1) with
      | none => none
      | some left_gini =>
        match P.calculate_gini right_y 0 (right_count - 1) with
        | none => none
        | some right_gini =>
          let p_left := P.div (Dbl.ofInt left_count) (Dbl.ofInt (end_ - start + 1))
          let p_right := P.div (Dbl.ofInt right_count) (Dbl.ofInt (end_ - start + 1))
          match P.calculate_gini y start end_ with
          | none => none
          | some g =>
            some (P.sub g (P.add (P.mul p_left left_gini) (P.mul p_right right_gini)))

/-- The gain that `best_split` computes on the platform for the candidate of column `f` and
row `i`. -/
def candidateGain (P : Platform) (X y : List Int) (start end_ num_features f i : Int) :
    Option Dbl :=
  P.calculate_information_gain X y start end_ f
    (Dbl.ofInt (P.rd X (i * num_features + f))) num_features

/-- The body of the inner loop of `best_split` on the platform. -/
def splitStep (P : Platform) (X y : List Int) (start end_ num_features feature_index : Int)
    (best : Split) (i : Int) : Option Split :=
  let threshold := Dbl.ofInt (P.rd X (i * num_features + feature_index))
  match P.calculate_information_gain X y start end_ feature_index threshold num_features with
  | none => none
  | some gain =>
    if Dbl.gt gain best.best_gain then some ⟨feature_index, threshold, gain⟩ else some best

/-- `DecisionTree::best_split` on the platform. -/
def best_split (P : Platform) (X y : List Int) (start end_ num_features : Int) : Option Split :=
  forLoop 0 (num_features - 1)
    (fun best feature_index =>
      forLoop start end_ (P.splitStep X y start end_ num_features feature_index) best)
    ⟨-1, Dbl.fin 0, Dbl.fin (-1)⟩

/-- One iteration of the loop of `build_tree` that counts `left_count`. -/
def leftCountStep (P : Platform) (X : List Int) (num_features feature_index : Int)
    (threshold : Dbl) (left_count : Int) (i : Int) : Int :=
  if P.goesLeft X num_features feature_index threshold i then left_count + 1 else left_count

/-- The inner loop of the partition of `build_tree`: appends row `i` of `X` to `dst`. -/
def copyRow (P : Platform) (X : List Int) (num_features i : Int) (dst : List Int) : List Int :=
  forT 0 (num_features - 1) (fun d j => d ++ [P.rd X (i * num_features + j)]) dst

/-- One iteration of the partition loop of `build_tree` on the platform. -/
def partStep (P : Platform) (X y : List Int) (num_features feature_index : Int)
    (threshold : Dbl) (p : Parts) (i : Int) : Option Parts :=
  if P.goesLeft X num_features feature_index threshold i then
    match DecisionTree.rd y i with
    | none => none
    | some l => some ⟨P.copyRow X num_features i p.left_X, p.left_y ++ [l], p.right_X, p.right_y⟩
  else
    match DecisionTree.rd y i with
    | none => none
    | some l => some ⟨p.left_X, p.left_y, P.copyRow X num_features i p.right_X, p.right_y ++ [l]⟩

/-- `DecisionTree::build_tree` on the platform. -/
def build_tree (P : Platform) (X y : List Int) (start end_ : Int) (depth : Nat)
    (num_features : Int) : Option Node :=
  match countLabels y start end_ with
  | none => none
  | some count =>
    match depth with
    | 0 => some (Node.leaf (leafValue count))
    | d + 1 =>
      if count.1 = 0 ∨ count.2 = 0 then some (Node.leaf (leafValue count))
      else
        match P.best_split X y start end_ num_features with
        | none => none
        | some best =>
          if Dbl.beq best.best_gain (Dbl.fin 0) then some (Node.leaf (leafValue count))
          else
            let left_count := forT start end_
              (P.leftCountStep X num_features best.best_feature_index best.best_threshold) 0
            let right_count := end_ - start + 1 - left_count
            match forLoop start end_
                (P.partStep X y num_features best.best_feature_index best.best_threshold)
                ⟨[], [], [], []⟩ with
            | none => none
            | some p =>
              match P.build_tree p.left_X p.left_y 0 (left_count - 1) d num_features with
              | none => none
              | some l =>
                match P.build_tree p.right_X p.right_y 0 (right_count - 1) d num_features with
                | none => none
                | some r =>
                  some (Node.decision best.best_feature_index best.best_threshold l r)

/-- `DecisionTree::fit` on the platform: the object after the call. -/
def fit (P : Platform) (_self : DecisionTree) (X y : List Int) (num_samples num_features : Int)
    (max_depth : Nat) : Option DecisionTree :=
  match P.build_tree X y 0 (num_samples - 1) max_depth num_features with
  | none => none
  | some r => some ⟨some r⟩

end Platform

namespace Platform

/-- The rows of the range that the test of the platform sends left, in the order of the range. -/
def leftRows (P : Platform) (X : List Int) (start end_ num_features feature_index : Int)
    (threshold : Dbl) : List Int :=
  (rangeIdx start end_).filter (fun i => P.goesLeft X num_features feature_index threshold i)

/-- The rows of the range that the test of the platform sends right, in the order of the
range. -/
def rightRows (P : Platform) (X : List Int) (start end_ num_features feature_index : Int)
    (threshold : Dbl) : List Int :=
  (rangeIdx start end_).filter (fun i => !P.goesLeft X num_features feature_index threshold i)

/-- Row `i` of the matrix `X` as the platform reads it. -/
def rowAt (P : Platform) (X : List Int) (num_features i : Int) : List Int :=
  (rangeIdx 0 (num_features - 1)).map (fun j => P.rd X (i * num_features + j))

/-- The state of `best_split` on the platform when exactly the candidates before `(f, k)` have
been examined: no examined candidate has a gain greater than `best_gain`, and `best` is either
the initial value or the first examined candidate whose gain is `best_gain`. -/
def SplitInv (P : Platform) (X y : List Int) (start end_ num_features f k : Int)
    (best : Split) : Prop :=
  (∀ f' i', IsCandidate start end_ num_features f' i' → Before f' i' f k →
      ∃ g, P.candidateGain X y start end_ num_features f' i' = some g ∧
        Dbl.gt g best.best_gain = false) ∧
  (best = ⟨-1, Dbl.fin 0, Dbl.fin (-1)⟩ ∨
    ∃ f0 i0, IsCandidate start end_ num_features f0 i0 ∧ Before f0 i0 f k ∧
      P.candidateGain X y start end_ num_features f0 i0 = some best.best_gain ∧
      best.best_feature_index = f0 ∧
      best.best_threshold = Dbl.ofInt (P.rd X (i0 * num_features + f0)) ∧
      Dbl.gt best.best_gain (Dbl.fin (-1)) = true ∧
      ∀ f' i', IsCandidate start end_ num_features f' i' → Before f' i' f0 i0 →
        ∃ g, P.candidateGain X y start end_ num_features f' i' = some g ∧
          Dbl.beq g best.best_gain = false)

end Platform

/-! ## The rounding of IEEE-754 binary64 -/

namespace Dbl

/-- The power `2^s` for an integer `s`. -/
def pow2 (s : Int) : ℚ :=
  if 0 ≤ s then ((2 ^ s.toNat : Nat) : ℚ) else 1 / ((2 ^ (-s).toNat : Nat) : ℚ)

/-- The halvings of `n` down to 1, at most `fuel` of them. -/
def halvings : Nat → Nat → Nat
  | 0, _ => 0
  | fuel + 1, n => if 2 ≤ n then halvings fuel (n / 2) + 1 else 0

/-- The position of the leading bit of `n`: the `k` with `2^k ≤ n < 2^(k+1)` for `n ≥ 1`. -/
def ilog2 (n : Nat) : Nat := halvings n n

/-- The binary exponent of a positive rational `a`: the `e` with `2^e ≤ a < 2^(e+1)`. -/
def exponent (a : ℚ) : Int :=
  let e : Int := (ilog2 a.num.toNat : Int) - (ilog2 a.den : Int)
  if pow2 e ≤ a then e else e - 1

/-- The integer nearest to `m`; of the two nearest integers of a half, the even one. -/
def roundEven (m : ℚ) : Int :=
  let f := Rat.floor m
  if m - f < 1 / 2 then f
  else if 1 / 2 < m - f then f + 1
  else if f % 2 = 0 then f else f + 1

/-- Round-to-nearest, ties-to-even, of a rational to binary64: 53 significant bits, and the fixed
spacing `2^-1074` below `2^-1022` (overflow beyond `2^1024` is not modelled; this program
computes no value beyond 2). -/
def round64 (x : ℚ) : ℚ :=
  if x = 0 then 0
  else
    let s := max (exponent (if 0 ≤ x then x else -x) - 52) (-1074)
    (roundEven (x / pow2 s) : ℚ) * pow2 s

end Dbl

namespace Platform

/-- The platform of an IEEE-754 machine: every operation on doubles rounds its result to the
nearest binary64 value, and every read outside an array finds `w`. -/
def binary64 (w : Int) : Platform := ⟨Dbl.round64, fun _ _ => w⟩

end Platform

/-! ## Inversion of `build_tree` -/

theorem build_tree_zero (X y : List Int) (start end_ nf : Int) :
    build_tree X y start end_ 0 nf
      = (countLabels y start end_).map (fun c => Node.leaf (leafValue c)) := by
  unfold build_tree
  cases countLabels y start end_ <;> rfl

/-- Inversion of a successful call of `build_tree`: it returned a leaf holding `leafValue` of the
class counts, or it split the range and built the two children one level lower. -/
theorem build_tree_inv {X y : List Int} {start end_ : Int} {depth : Nat} {nf : Int} {t : Node}
    (h : build_tree X y start end_ depth nf = some t) :
    ∃ count, countLabels y start end_ = some count ∧
      ((t = Node.leaf (leafValue count) ∧
          (depth = 0 ∨ count.1 = 0 ∨ count.2 = 0 ∨
            ∃ best, best_split X y start end_ nf = some best ∧
              Dbl.beq best.best_gain (Dbl.fin 0) = true)) ∨
        ∃ d best left_count p l r,
          depth = d + 1 ∧ count.1 ≠ 0 ∧ count.2 ≠ 0 ∧
          best_split X y start end_ nf = some best ∧
          Dbl.beq best.best_gain (Dbl.fin 0) = false ∧
          forLoop start end_
            (leftCountStep X nf best.best_feature_index best.best_threshold) 0
              = some left_count ∧
          forLoop start end_
            (partStep X y nf best.best_feature_index best.best_threshold) ⟨[], [], [], []⟩
              = some p ∧
          build_tree p.left_X p.left_y 0 (left_count - 1) d nf = some l ∧
          build_tree p.right_X p.right_y 0 (end_ - start + 1 - left_count - 1) d nf = some r ∧
          t = Node.decision best.best_feature_index best.best_threshold l r) := by
  cases depth with
  | zero =>
    rw [build_tree_zero] at h
    cases hc : countLabels y start end_ with
    | none => simp [hc] at h
    | some count =>
      simp [hc] at h
      exact ⟨count, rfl, Or.inl ⟨h.symm, Or.inl rfl⟩⟩
  | succ d =>
    unfold build_tree at h
    cases hc : countLabels y start end_ with
    | none => simp [hc] at h
    | some count =>
      refine ⟨count, rfl, ?_⟩
      simp only [hc] at h
      by_cases hpure : count.1 = 0 ∨ count.2 = 0
      · rw [if_pos hpure] at h
        left
        refine ⟨(Option.some.inj h).symm, Or.inr ?_⟩
        rcases hpure with h1 | h1
        · exact Or.inl h1
        · exact Or.inr (Or.inl h1)
      · rw [if_neg hpure] at h
        push_neg at hpure
        cases hb : best_split X y start end_ nf with
        | none => simp [hb] at h
        | some best =>
          simp only [hb] at h
          cases hg : Dbl.beq best.best_gain (Dbl.fin 0) with
          | true =>
            simp only [hg, if_true] at h
            left
            exact ⟨(Option.some.inj h).symm, Or.inr (Or.inr (Or.inr ⟨best, rfl, hg⟩))⟩
          | false =>
            simp only [hg] at h
            right
            cases hl : forLoop start end_
                (leftCountStep X nf best.best_feature_index best.best_threshold) 0 with
            | none => simp [hl] at h
            | some left_count =>
              simp only [hl] at h
              cases hp : forLoop start end_
                  (partStep X y nf best.best_feature_index best.best_threshold)
                  ⟨[], [], [], []⟩ with
              | none => simp [hp] at h
              | some p =>
                simp only [hp] at h
                cases h1 : build_tree p.left_X p.left_y 0 (left_count - 1) d nf with
                | none => simp [h1] at h
                | some l =>
                  simp only [h1] at h
                  cases h2 : build_tree p.right_X p.right_y 0
                      (end_ - start + 1 - left_count - 1) d nf with
                  | none => simp [h2] at h
                  | some r =>
                    simp only [h2] at h
                    exact ⟨d, best, left_count, p, l, r, rfl, hpure.1, hpure.2, rfl, hg,
                      hl, hp, h1, h2, (Option.some.inj h).symm⟩

/-! ## Loops -/

theorem forLoop_eq {σ : Type} (start end_ : Int) (body : σ → Int → Option σ) (s : σ) :
    forLoop start end_ body s = loopFrom body (end_ + 1 - start).toNat start s := rfl

/-- A property kept by every iteration holds after the loop. -/
theorem loopFrom_invariant {σ : Type} (body : σ → Int → Option σ) (P : σ → Prop) (n : Nat) :
    ∀ (i : Int) (s s' : σ),
      (∀ (u : σ) (k : Int) (u' : σ), i ≤ k → k < i + n → P u → body u k = some u' → P u') →
      P s → loopFrom body n i s = some s' → P s' := by
  induction n with
  | zero =>
    intro i s s' _ hs h
    simp only [loopFrom, Option.some.injEq] at h
    exact h ▸ hs
  | succ n ih =>
    intro i s s' hstep hs h
    simp only [loopFrom] at h
    cases hb : body s i with
    | none => simp [hb] at h
    | some u =>
      simp only [hb] at h
      refine ih (i + 1) u s' ?_ (hstep s i u le_rfl (by push_cast; omega) hs hb) h
      intro v k v' hk1 hk2 hv hbv
      exact hstep v k v' (by omega) (by push_cast; omega) hv hbv

/-- A loop of at least one iteration whose first iteration fails, fails. -/
theorem loopFrom_first_none {σ : Type} (body : σ → Int → Option σ) (n : Nat) (i : Int) (s : σ)
    (hn : 0 < n) (h : body s i = none) : loopFrom body n i s = none := by
  cases n with
  | zero => omega
  | succ n => simp [loopFrom, h]

/-! ## Reads -/

theorem rd_eq_some {a : List Int} {k v : Int} (h : rd a k = some v) :
    0 ≤ k ∧ k < a.length := by
  unfold rd at h
  by_cases hk : 0 ≤ k
  · rw [if_pos hk] at h
    have := (List.getElem?_eq_some.mp h).1
    exact ⟨hk, by omega⟩
  · rw [if_neg hk] at h
    cases h

theorem rd_of_lt {a : List Int} {k : Int} (h0 : 0 ≤ k) (h1 : k < a.length) :
    ∃ v, rd a k = some v := by
  unfold rd
  rw [if_pos h0]
  have : k.toNat < a.length := by omega
  exact ⟨a[k.toNat], List.getElem?_eq_getElem this⟩

/-! ## The counting loop -/

theorem countStep_zero {y : List Int} {i : Int} (c : Int × Int) (h : rd y i = some 0) :
    countStep y c i = some (c.1 + 1, c.2) := by
  simp [countStep, h]

theorem countStep_one {y : List Int} {i : Int} (c : Int × Int) (h : rd y i = some 1) :
    countStep y c i = some (c.1, c.2 + 1) := by
  simp [countStep, h]

theorem countStep_some {y : List Int} {i : Int} {c c' : Int × Int}
    (h : countStep y c i = some c') :
    (rd y i = some 0 ∧ c' = (c.1 + 1, c.2)) ∨ (rd y i = some 1 ∧ c' = (c.1, c.2 + 1)) := by
  unfold countStep at h
  cases hr : rd y i with
  | none => simp [hr] at h
  | some l =>
    simp only [hr] at h
    by_cases h0 : l = 0
    · subst h0
      simp at h
      exact Or.inl ⟨rfl, h.symm⟩
    · by_cases h1 : l = 1
      · subst h1
        simp at h
        exact Or.inr ⟨rfl, h.symm⟩
      · simp [h0, h1] at h

/-- On labels over `{0,1}` the counting loop returns the two class counts: they are
non-negative, add up to the number of rows, and a count is zero exactly when every label is
the other class. -/
theorem countLoop_spec (y : List Int) (n : Nat) : ∀ (i : Int) (c : Int × Int),
    (∀ k, i ≤ k → k < i + n → rd y k = some 0 ∨ rd y k = some 1) →
    ∃ a b : Int, loopFrom (countStep y) n i c = some (c.1 + a, c.2 + b) ∧
      0 ≤ a ∧ 0 ≤ b ∧ a + b = n ∧
      (b = 0 ↔ ∀ k, i ≤ k → k < i + n → rd y k = some 0) ∧
      (a = 0 ↔ ∀ k, i ≤ k → k < i + n → rd y k = some 1) := by
  induction n with
  | zero =>
    intro i c _
    refine ⟨0, 0, by simp [loopFrom], le_rfl, le_rfl, by simp, ?_, ?_⟩ <;>
    · simp only [true_iff]
      intro k h1 h2
      simp at h2
      omega
  | succ n ih =>
    intro i c hy
    have hy' : ∀ k, i + 1 ≤ k → k < i + 1 + n → rd y k = some 0 ∨ rd y k = some 1 :=
      fun k h1 h2 => hy k (by omega) (by push_cast; omega)
    rcases hy i le_rfl (by push_cast; omega) with h0 | h1
    · obtain ⟨a, b, hl, ha, hb, hab, hb0, ha0⟩ := ih (i + 1) (c.1 + 1, c.2) hy'
      refine ⟨a + 1, b, ?_, by omega, hb, by push_cast; omega, ?_, ?_⟩
      · have e : c.1 + 1 + a = c.1 + (a + 1) := by ring
        simp only [loopFrom, countStep_zero c h0, hl, e]
      · rw [hb0]
        constructor
        · intro h k hk1 hk2
          by_cases hki : k = i
          · subst hki; exact h0
          · exact h k (by omega) (by push_cast at hk2; omega)
        · intro h k hk1 hk2
          exact h k (by omega) (by push_cast; omega)
      · constructor
        · intro h; omega
        · intro h
          have := h i le_rfl (by push_cast; omega)
          rw [h0] at this
          simp at this
    · obtain ⟨a, b, hl, ha, hb, hab, hb0, ha0⟩ := ih (i + 1) (c.1, c.2 + 1) hy'
      refine ⟨a, b + 1, ?_, ha, by omega, by push_cast; omega, ?_, ?_⟩
      · have e : c.2 + 1 + b = c.2 + (b + 1) := by ring
        simp only [loopFrom, countStep_one c h1, hl, e]
      · constructor
        · intro h; omega
        · intro h
          have := h i le_rfl (by push_cast; omega)
          rw [h1] at this
          simp at this
      · rw [ha0]
        constructor
        · intro h k hk1 hk2
          by_cases hki : k = i
          · subst hki; exact h1
          · exact h k (by omega) (by push_cast at hk2; omega)
        · intro h k hk1 hk2
          exact h k (by omega) (by push_cast; omega)

/-- When the counting loop returns, every label it read is `0` or `1`. -/
theorem countLoop_valid (y : List Int) (n : Nat) : ∀ (i : Int) (c r : Int × Int),
    loopFrom (countStep y) n i c = some r →
    ∀ k, i ≤ k → k < i + n → rd y k = some 0 ∨ rd y k = some 1 := by
  induction n with
  | zero =>
    intro i c r _ k h1 h2
    simp at h2
    omega
  | succ n ih =>
    intro i c r h k h1 h2
    simp only [loopFrom] at h
    cases hs : countStep y c i with
    | none => simp [hs] at h
    | some c' =>
      simp only [hs] at h
      by_cases hki : k = i
      · subst hki
        rcases countStep_some hs with ⟨h0, -⟩ | ⟨h1, -⟩
        · exact Or.inl h0
        · exact Or.inr h1
      · exact ih (i + 1) c' r h k (by omega) (by push_cast at h2; omega)

/-- The class counts of a non-empty range of labels over `{0,1}`. -/
theorem countLabels_spec {y : List Int} {start end_ : Int} (hse : start ≤ end_)
    (hy : ∀ i, start ≤ i → i ≤ end_ → rd y i = some 0 ∨ rd y i = some 1) :
    ∃ a b : Int, countLabels y start end_ = some (a, b) ∧
      0 ≤ a ∧ 0 ≤ b ∧ a + b = end_ - start + 1 ∧
      (b = 0 ↔ ∀ k, start ≤ k → k ≤ end_ → rd y k = some 0) ∧
      (a = 0 ↔ ∀ k, start ≤ k → k ≤ end_ → rd y k = some 1) := by
  have hn : ((end_ + 1 - start).toNat : Int) = end_ + 1 - start := by omega
  obtain ⟨a, b, hl, ha, hb, hab, hb0, ha0⟩ :=
    countLoop_spec y (end_ + 1 - start).toNat start (0, 0)
      (fun k h1 h2 => hy k h1 (by omega))
  refine ⟨a, b, ?_, ha, hb, by omega, ?_, ?_⟩
  · simpa [countLabels, forLoop] using hl
  · rw [hb0]
    exact ⟨fun h k h1 h2 => h k h1 (by omega), fun h k h1 h2 => h k h1 (by omega)⟩
  · rw [ha0]
    exact ⟨fun h k h1 h2 => h k h1 (by omega), fun h k h1 h2 => h k h1 (by omega)⟩

/-- When `countLabels` returns, the labels of the range are over `{0,1}`. -/
theorem countLabels_valid {y : List Int} {start end_ : Int} {c : Int × Int}
    (h : countLabels y start end_ = some c) :
    ∀ i, start ≤ i → i ≤ end_ → rd y i = some 0 ∨ rd y i = some 1 := by
  intro i h1 h2
  exact countLoop_valid y _ start (0, 0) c h i h1 (by omega)

/-! ## Class counts and the Gini impurity -/

theorem countP_range_succ (p : Nat → Bool) (n : Nat) :
    (List.range (n + 1)).countP p
      = (if p 0 then 1 else 0) + (List.range n).countP (fun k => p (k + 1)) := by
  rw [List.range_succ_eq_map, List.countP_cons, List.countP_map, add_comm]
  rfl

/-- The counting loop adds to each counter the number of rows holding that class. -/
theorem countLoop_classCount (y : List Int) (n : Nat) : ∀ (i : Int) (c r : Int × Int),
    loopFrom (countStep y) n i c = some r →
    r.1 = c.1 + ((List.range n).countP (fun (k : Nat) => decide (rd y (i + (k : Int)) = some 0)) : Nat) ∧
    r.2 = c.2 + ((List.range n).countP (fun (k : Nat) => decide (rd y (i + (k : Int)) = some 1)) : Nat) := by
  induction n with
  | zero =>
    intro i c r h
    simp only [loopFrom, Option.some.injEq] at h
    subst h
    simp
  | succ n ih =>
    intro i c r h
    simp only [loopFrom] at h
    cases hs : countStep y c i with
    | none => simp [hs] at h
    | some c' =>
      simp only [hs] at h
      obtain ⟨e1, e2⟩ := ih (i + 1) c' r h
      have sh : ∀ (v : Int) (k : Nat), rd y (i + 1 + (k : Int)) = some v ↔
          rd y (i + ((k + 1 : Nat) : Int)) = some v := by
        intro v k
        have : i + 1 + (k : Int) = i + ((k + 1 : Nat) : Int) := by push_cast; ring
        rw [this]
      simp only [sh] at e1 e2
      rw [countP_range_succ, countP_range_succ]
      have z : i + ((0 : Nat) : Int) = i := by simp
      rcases countStep_some hs with ⟨h0, rfl⟩ | ⟨h1, rfl⟩
      · simp only [z, h0] at *
        simp at e1 e2 ⊢
        constructor <;> omega
      · simp only [z, h1] at *
        simp at e1 e2 ⊢
        constructor <;> omega

/-- The counters returned by `countLabels` are the class counts of the range. -/
theorem countLabels_classCount {y : List Int} {start end_ : Int} {c : Int × Int}
    (h : countLabels y start end_ = some c) :
    c.1 = classCount y start end_ 0 ∧ c.2 = classCount y start end_ 1 := by
  have := countLoop_classCount y _ start (0, 0) c h
  simpa [classCount] using this

theorem Dbl.div_ofInt (a b : Int) (hb : b ≠ 0) :
    Dbl.div (Dbl.ofInt a) (Dbl.ofInt b) = Dbl.fin ((a : ℚ) / (b : ℚ)) := by
  have : (b : ℚ) ≠ 0 := by exact_mod_cast hb
  simp [Dbl.div, Dbl.ofInt, this]

/-- The value `calculate_gini` computes from the class counts of a non-empty range. -/
theorem calculate_gini_of_counts {y : List Int} {start end_ : Int} {c : Int × Int}
    (h : countLabels y start end_ = some c) (hn : end_ - start + 1 ≠ 0) :
    calculate_gini y start end_ = some (Dbl.fin
      (1 - (((c.1 : ℚ) / ((end_ - start + 1 : Int) : ℚ)) ^ 2
          + ((c.2 : ℚ) / ((end_ - start + 1 : Int) : ℚ)) ^ 2))) := by
  unfold calculate_gini
  simp only [h, Dbl.div_ofInt _ _ hn]
  simp only [Dbl.mul, Dbl.add, Dbl.sub, Dbl.neg, Dbl.ofInt]
  congr 2
  push_cast
  ring

/-- With `a + b = n > 0` the impurity `1 - ((a/n)^2 + (b/n)^2)` is `2ab/n^2`. -/
theorem gini_formula (a b n : ℚ) (hn : n ≠ 0) (hab : a + b = n) :
    1 - ((a / n) ^ 2 + (b / n) ^ 2) = 2 * a * b / n ^ 2 := by
  subst hab
  field_simp
  ring

/-! ## Depth of the built tree -/

theorem Node.leafDepths_le_height (t : Node) : ∀ k ∈ t.leafDepths, k ≤ t.height := by
  induction t with
  | leaf v => intro k hk; simp [Node.leafDepths] at hk; simp [hk]
  | decision f th l r ihl ihr =>
    intro k hk
    simp only [Node.leafDepths, List.mem_map, List.mem_append] at hk
    obtain ⟨j, hj, rfl⟩ := hk
    simp only [Node.height]
    rcases hj with hj | hj
    · have := ihl j hj; omega
    · have := ihr j hj; omega

theorem build_tree_height_le (d : Nat) :
    ∀ (X y : List Int) (start end_ : Int) (nf : Int) (t : Node),
      build_tree X y start end_ d nf = some t → t.height ≤ d := by
  induction d with
  | zero =>
    intro X y s e nf t h
    obtain ⟨c, -, (⟨rfl, -⟩ | ⟨d, _, _, _, _, _, hd, -⟩)⟩ := build_tree_inv h
    · simp [Node.height]
    · omega
  | succ d ih =>
    intro X y s e nf t h
    obtain ⟨c, -, (⟨rfl, -⟩ | ⟨d', _, _, _, l, r, hd, -, -, -, -, -, -, hl, hr, rfl⟩)⟩ :=
      build_tree_inv h
    · simp [Node.height]
    · obtain rfl : d' = d := by omega
      have := ih _ _ _ _ _ _ hl
      have := ih _ _ _ _ _ _ hr
      simp only [Node.height]
      omega

theorem fit_eq_some {self T : DecisionTree} {X y : List Int} {ns nf : Int} {md : Nat}
    (h : fit self X y ns nf md = some T) :
    ∃ root, build_tree X y 0 (ns - 1) md nf = some root ∧ T = ⟨some root⟩ := by
  unfold fit at h
  cases hb : build_tree X y 0 (ns - 1) md nf with
  | none => simp [hb] at h
  | some r =>
    simp only [hb, Option.some.injEq] at h
    exact ⟨r, rfl, h.symm⟩

/-! ## Pure ranges -/

/-- C2: on a non-empty range whose labels are all the class `c`, `build_tree` returns the single
leaf of value `c`, whatever the depth and the feature matrix; so `fit` on labels all equal to `c`
returns that leaf as root and `predict` returns `c` for every sample. -/
theorem build_tree_pure_range (X y : List Int) (num_features : Int) (c : Int)
    (hc : c = 0 ∨ c = 1) :
    (∀ (start end_ : Int) (depth : Nat), start ≤ end_ →
        (∀ i, start ≤ i → i ≤ end_ → rd y i = some c) →
        build_tree X y start end_ depth num_features = some (Node.leaf (Dbl.ofInt c))) ∧
    (∀ (self : DecisionTree) (num_samples : Int) (max_depth : Nat), 1 ≤ num_samples →
        (∀ i, 0 ≤ i → i < num_samples → rd y i = some c) →
        fit self X y num_samples num_features max_depth
            = some ⟨some (Node.leaf (Dbl.ofInt c))⟩ ∧
          ∀ sample : List Int,
            predict ⟨some (Node.leaf (Dbl.ofInt c))⟩ sample num_features
              = some (Dbl.ofInt c)) := by
  have key : ∀ (start end_ : Int) (depth : Nat), start ≤ end_ →
      (∀ i, start ≤ i → i ≤ end_ → rd y i = some c) →
      build_tree X y start end_ depth num_features = some (Node.leaf (Dbl.ofInt c)) := by
    intro start end_ depth hse hy
    have hy' : ∀ i, start ≤ i → i ≤ end_ → rd y i = some 0 ∨ rd y i = some 1 := by
      intro i h1 h2
      rcases hc with rfl | rfl
      · exact Or.inl (hy i h1 h2)
      · exact Or.inr (hy i h1 h2)
    obtain ⟨a, b, hcl, ha, hb, hab, hb0, ha0⟩ := countLabels_spec hse hy'
    have hval : leafValue (a, b) = Dbl.ofInt c := by
      rcases hc with rfl | rfl
      · have : b = 0 := hb0.mpr hy
        have : a > b := by omega
        simp [leafValue, this]
      · have : a = 0 := ha0.mpr hy
        have : ¬ a > b := by omega
        simp [leafValue, this]
    have hpure : a = 0 ∨ b = 0 := by
      rcases hc with rfl | rfl
      · exact Or.inr (hb0.mpr hy)
      · exact Or.inl (ha0.mpr hy)
    cases depth with
    | zero => rw [build_tree_zero, hcl]; simp [hval]
    | succ d =>
      unfold build_tree
      simp only [hcl]
      rw [if_pos hpure, hval]
  refine ⟨key, ?_⟩
  intro self num_samples max_depth hn hy
  constructor
  · unfold fit
    rw [key 0 (num_samples - 1) max_depth (by omega) (fun i h1 h2 => hy i h1 (by omega))]
  · intro sample
    rfl

theorem build_tree_pure_range_witness :
    build_tree [7, 8, 9] [1, 1, 1] 0 2 4 1 = some (Node.leaf (Dbl.ofInt 1)) :=
  (build_tree_pure_range [7, 8, 9] [1, 1, 1] 1 1 (Or.inr rfl)).1 0 2 4 (by decide)
    (by intro i h1 h2; interval_cases i <;> rfl)

/-! ## Bounds on the Gini impurity -/

/-- C5: on a non-empty range `start ≤ end_` of labels over `{0,1}`, `calculate_gini` returns
`g = 1 - (p0^2 + p1^2)`, where `p0` and `p1` are the proportions of the classes 0 and 1 in the
range, and `0 ≤ g ≤ 1/2`. -/
theorem calculate_gini_bounds (y : List Int) (start end_ : Int) (hse : start ≤ end_)
    (hy : ∀ i, start ≤ i → i ≤ end_ → rd y i = some 0 ∨ rd y i = some 1) :
    ∃ g : ℚ, calculate_gini y start end_ = some (Dbl.fin g) ∧
      g = 1 - (((classCount y start end_ 0 : ℚ) / (rangeSize start end_ : ℚ)) ^ 2
              + ((classCount y start end_ 1 : ℚ) / (rangeSize start end_ : ℚ)) ^ 2) ∧
      0 ≤ g ∧ g ≤ 1 / 2 := by
  obtain ⟨a, b, hcl, ha, hb, hab, -, -⟩ := countLabels_spec hse hy
  obtain ⟨e1, e2⟩ := countLabels_classCount hcl
  simp only at e1 e2
  have hn : end_ - start + 1 ≠ 0 := by omega
  have hnq : ((end_ - start + 1 : Int) : ℚ) ≠ 0 := by exact_mod_cast hn
  have habq : (a : ℚ) + (b : ℚ) = ((end_ - start + 1 : Int) : ℚ) := by exact_mod_cast hab
  have haq : (0 : ℚ) ≤ a := by exact_mod_cast ha
  have hbq : (0 : ℚ) ≤ b := by exact_mod_cast hb
  refine ⟨_, calculate_gini_of_counts hcl hn, ?_, ?_, ?_⟩
  · simp only [rangeSize]
    have e1q : (a : ℚ) = (classCount y start end_ 0 : ℚ) := by exact_mod_cast e1
    have e2q : (b : ℚ) = (classCount y start end_ 1 : ℚ) := by exact_mod_cast e2
    rw [← e1q, ← e2q]
  · rw [gini_formula _ _ _ hnq habq]
    positivity
  · rw [gini_formula _ _ _ hnq habq, div_le_iff₀ (by positivity)]
    rw [← habq]
    nlinarith [sq_nonneg ((a : ℚ) - b)]

theorem calculate_gini_bounds_witness :
    ∃ g : ℚ, calculate_gini [0, 1, 1] 0 2 = some (Dbl.fin g) ∧
      g = 1 - (((classCount [0, 1, 1] 0 2 0 : ℚ) / (rangeSize 0 2 : ℚ)) ^ 2
              + ((classCount [0, 1, 1] 0 2 1 : ℚ) / (rangeSize 0 2 : ℚ)) ^ 2) ∧
      0 ≤ g ∧ g ≤ 1 / 2 :=
  calculate_gini_bounds [0, 1, 1] 0 2 (by decide)
    (by intro i h1 h2; interval_cases i <;> simp [rd])

/-- C6: on a non-empty range of labels over `{0,1}`, `calculate_gini` returns exactly 0 if and
only if all labels of the range are the same class. -/
theorem calculate_gini_eq_zero_iff (y : List Int) (start end_ : Int) (hse : start ≤ end_)
    (hy : ∀ i, start ≤ i → i ≤ end_ → rd y i = some 0 ∨ rd y i = some 1) :
    calculate_gini y start end_ = some (Dbl.fin 0) ↔
      ∃ c, ∀ i, start ≤ i → i ≤ end_ → rd y i = some c := by
  obtain ⟨a, b, hcl, ha, hb, hab, hb0, ha0⟩ := countLabels_spec hse hy
  have hn : end_ - start + 1 ≠ 0 := by omega
  have hnq : ((end_ - start + 1 : Int) : ℚ) ≠ 0 := by exact_mod_cast hn
  have habq : (a : ℚ) + (b : ℚ) = ((end_ - start + 1 : Int) : ℚ) := by exact_mod_cast hab
  rw [calculate_gini_of_counts hcl hn]
  simp only [Option.some.injEq, Dbl.fin.injEq]
  rw [gini_formula _ _ _ hnq habq, div_eq_zero_iff]
  have hz : (2 * (a : ℚ) * (b : ℚ) = 0 ∨ ((end_ - start + 1 : Int) : ℚ) ^ 2 = 0) ↔
      (a = 0 ∨ b = 0) := by
    constructor
    · rintro (h | h)
      · rcases mul_eq_zero.mp h with h | h
        · rcases mul_eq_zero.mp h with h | h
          · norm_num at h
          · exact Or.inl (by exact_mod_cast h)
        · exact Or.inr (by exact_mod_cast h)
      · exact absurd (pow_eq_zero_iff (by norm_num) |>.mp h) hnq
    · rintro (h | h)
      · left; rw [h]; simp
      · left; rw [h]; simp
  rw [hz]
  constructor
  · rintro (h | h)
    · exact ⟨1, ha0.mp h⟩
    · exact ⟨0, hb0.mp h⟩
  · rintro ⟨c, hcc⟩
    rcases hy start le_rfl hse with h0 | h1
    · have : c = 0 := by
        have := hcc start le_rfl hse
        rw [h0] at this
        exact (Option.some.inj this).symm
      subst this
      exact Or.inr (hb0.mpr hcc)
    · have : c = 1 := by
        have := hcc start le_rfl hse
        rw [h1] at this
        exact (Option.some.inj this).symm
      subst this
      exact Or.inl (ha0.mpr hcc)

theorem calculate_gini_eq_zero_iff_witness :
    calculate_gini [1, 0, 0, 1] 1 2 = some (Dbl.fin 0) ↔
      ∃ c, ∀ i, (1 : Int) ≤ i → i ≤ 2 → rd [1, 0, 0, 1] i = some c :=
  calculate_gini_eq_zero_iff [1, 0, 0, 1] 1 2 (by decide)
    (by intro i h1 h2; interval_cases i <;> simp [rd])

/-! ## The data set of `main` -/

/-- C3: on the ten rows of `main`, `fit` with `max_depth = 3` returns a tree on which `predict`
answers 1 for the sample `(40, 1, 1)`. -/
theorem main_prediction :
    ∃ T, fit new mainX mainY 10 3 3 = some T ∧ predict T [40, 1, 1] 3 = some (Dbl.ofInt 1) :=
  ⟨⟨some (Node.decision 2 (Dbl.fin 0) (Node.leaf (Dbl.fin 0))
      (Node.decision 1 (Dbl.fin 0)
        (Node.decision 0 (Dbl.fin 36) (Node.leaf (Dbl.fin 1)) (Node.leaf (Dbl.fin 0)))
        (Node.leaf (Dbl.fin 1))))⟩, by decide!, by decide!⟩

/-! ## Leaf values -/

/-- A leaf returned by `build_tree` holds `leafValue` of the class counts of the range. -/
theorem build_tree_leaf {X y : List Int} {start end_ : Int} {depth : Nat} {nf : Int} {v : Dbl}
    (h : build_tree X y start end_ depth nf = some (Node.leaf v)) :
    ∃ count, countLabels y start end_ = some count ∧ v = leafValue count := by
  obtain ⟨c, hc, (⟨ht, -⟩ | ⟨_, _, _, _, _, _, -, -, -, -, -, -, -, -, -, ht⟩)⟩ :=
    build_tree_inv h
  · exact ⟨c, hc, Node.leaf.inj ht⟩
  · cases ht

theorem leafValue_cases (count : Int × Int) :
    leafValue count = Dbl.ofInt 0 ∨ leafValue count = Dbl.ofInt 1 := by
  unfold leafValue
  split
  · exact Or.inl rfl
  · exact Or.inr rfl

/-- Every leaf of a tree returned by `build_tree` holds 0 or 1. -/
theorem build_tree_leafValues (d : Nat) :
    ∀ (X y : List Int) (start end_ : Int) (nf : Int) (t : Node),
      build_tree X y start end_ d nf = some t →
      ∀ v ∈ t.leafValues, v = Dbl.ofInt 0 ∨ v = Dbl.ofInt 1 := by
  induction d with
  | zero =>
    intro X y s e nf t h v hv
    obtain ⟨c, -, (⟨rfl, -⟩ | ⟨d, _, _, _, _, _, hd, -⟩)⟩ := build_tree_inv h
    · simp only [Node.leafValues, List.mem_singleton] at hv
      rw [hv]; exact leafValue_cases c
    · omega
  | succ d ih =>
    intro X y s e nf t h v hv
    obtain ⟨c, -, (⟨rfl, -⟩ | ⟨d', _, _, _, l, r, hd, -, -, -, -, -, -, hl, hr, rfl⟩)⟩ :=
      build_tree_inv h
    · simp only [Node.leafValues, List.mem_singleton] at hv
      rw [hv]; exact leafValue_cases c
    · obtain rfl : d' = d := by omega
      simp only [Node.leafValues, List.mem_append] at hv
      rcases hv with hv | hv
      · exact ih _ _ _ _ _ _ hl v hv
      · exact ih _ _ _ _ _ _ hr v hv

/-- C9 as stated fails: on the labels of `main` (five of each class) with depth 0, `build_tree`
returns a leaf that does not hold the majority label with the tie going to class 0. -/
theorem leaf_tie_not_to_zero :
    ¬ (∀ (X y : List Int) (start end_ : Int) (depth : Nat) (num_features : Int) (v : Dbl),
        build_tree X y start end_ depth num_features = some (Node.leaf v) →
        v = majorityTiesToZero (classCount y start end_ 0) (classCount y start end_ 1)) := by
  intro h
  have h1 : build_tree mainX mainY 0 9 0 3 = some (Node.leaf (Dbl.ofInt 1)) := by decide!
  have h2 := h mainX mainY 0 9 0 3 _ h1
  revert h2
  decide!

/-- C9, amended: a leaf returned by `build_tree` for a range holds the majority label of the
range, and holds 1 when the two classes are equally frequent: its value is 0 exactly when the
labels 0 strictly outnumber the labels 1. -/
theorem leaf_is_majority_ties_to_one (X y : List Int) (start end_ : Int) (depth : Nat)
    (num_features : Int) (v : Dbl)
    (h : build_tree X y start end_ depth num_features = some (Node.leaf v)) :
    v = majorityTiesToOne (classCount y start end_ 0) (classCount y start end_ 1) := by
  obtain ⟨c, hc, rfl⟩ := build_tree_leaf h
  obtain ⟨e1, e2⟩ := countLabels_classCount hc
  unfold leafValue majorityTiesToOne
  by_cases hgt : c.1 > c.2
  · have : classCount y start end_ 0 > classCount y start end_ 1 := by omega
    rw [if_pos hgt, if_pos this]
  · have : ¬ classCount y start end_ 0 > classCount y start end_ 1 := by omega
    rw [if_neg hgt, if_neg this]

theorem leaf_is_majority_ties_to_one_witness :
    Dbl.ofInt 1 = majorityTiesToOne (classCount mainY 0 9 0) (classCount mainY 0 9 1) :=
  leaf_is_majority_ties_to_one mainX mainY 0 9 0 3 (Dbl.ofInt 1) (by decide!)

/-! ## Candidates with an empty side -/

/-- C10 fails on the code: on the data of `main`, for column 0 and the threshold 51 (the largest
age, so that no row goes right), `calculate_information_gain` returns NaN, not 0. -/
theorem information_gain_empty_side_nan :
    calculate_information_gain mainX mainY 0 9 0 (Dbl.ofInt 51) 3 = some Dbl.nan ∧
    forLoop 0 9 (sideCountStep mainX 3 0 (Dbl.ofInt 51)) (0, 0) = some (10, 0) ∧
    calculate_gini [] 0 (0 - 1) = some Dbl.nan := by
  decide!

/-- C7 fails on the code: on two rows with the same feature value and different labels every
candidate has an empty right side, its gain is NaN, and `best_split` returns its initial values:
gain -1, feature index -1, threshold 0. -/
theorem best_split_keeps_sentinel :
    best_split [5, 5] [0, 1] 0 1 1 = some ⟨-1, Dbl.fin 0, Dbl.fin (-1)⟩ ∧
    calculate_information_gain [5, 5] [0, 1] 0 1 0 (Dbl.ofInt 5) 1 = some Dbl.nan := by
  decide!

/-- C8 fails on the code: on two rows with the same feature value and different labels the best
gain is -1, which is not 0, and `fit` with `max_depth = 1` does not return a leaf: `build_tree`
goes on to split on column -1 and reads `X[-1]`. -/
theorem build_tree_sentinel_not_leaf :
    (best_split [5, 5] [0, 1] 0 1 1).map (fun s => s.best_gain) = some (Dbl.fin (-1)) ∧
    forLoop 0 1 (leftCountStep [5, 5] 1 (-1) (Dbl.fin 0)) 0 = none ∧
    rd [5, 5] (0 * 1 + -1) = none ∧
    fit new [5, 5] [0, 1] 2 1 1 = none := by
  decide!

/-! ## Feature indices of the decision nodes -/

/-- The feature index that `best_split` returns is its initial -1 or a column of the matrix. -/
theorem best_split_feature_index {X y : List Int} {start end_ nf : Int} {best : Split}
    (h : best_split X y start end_ nf = some best) :
    best.best_feature_index = -1 ∨
      (0 ≤ best.best_feature_index ∧ best.best_feature_index < nf) := by
  unfold best_split at h
  rw [forLoop_eq] at h
  refine loopFrom_invariant _
    (fun s : Split => s.best_feature_index = -1 ∨
      (0 ≤ s.best_feature_index ∧ s.best_feature_index < nf)) _ 0 _ best ?_ (Or.inl rfl) h
  intro u f u' hf0 hf1 hu hbody
  have hfn : f < nf := by omega
  rw [forLoop_eq] at hbody
  refine loopFrom_invariant _
    (fun s : Split => s.best_feature_index = -1 ∨
      (0 ≤ s.best_feature_index ∧ s.best_feature_index < nf)) _ start u u' ?_ hu hbody
  intro w i w' _ _ hw hstep
  unfold splitStep at hstep
  cases hr : rd X (i * nf + f) with
  | none => simp [hr] at hstep
  | some v =>
    simp only [hr] at hstep
    cases hg : calculate_information_gain X y start end_ f (Dbl.ofInt v) nf with
    | none => simp [hg] at hstep
    | some gain =>
      simp only [hg] at hstep
      by_cases hgt : Dbl.gt gain w.best_gain = true
      · rw [if_pos hgt] at hstep
        cases hstep
        exact Or.inr ⟨hf0, hfn⟩
      · rw [if_neg hgt] at hstep
        cases hstep
        exact hw

/-- When the counting loop finds a label of each class, the range is not empty. -/
theorem countLabels_nonempty {y : List Int} {start end_ : Int} {c : Int × Int}
    (h : countLabels y start end_ = some c) (h1 : c.1 ≠ 0) : start ≤ end_ := by
  by_contra hlt
  have hn : (end_ + 1 - start).toNat = 0 := by omega
  simp only [countLabels, forLoop, hn, loopFrom, Option.some.injEq] at h
  rw [← h] at h1
  exact h1 rfl

/-- In a call with `start = 0` on a non-empty range, the loop counting `left_count` fails when
the split column is -1: its first iteration reads `X[-1]`. -/
theorem leftCount_sentinel_none (X : List Int) (end_ nf : Int) (th : Dbl) (h0 : 0 ≤ end_) :
    forLoop 0 end_ (leftCountStep X nf (-1) th) 0 = none := by
  rw [forLoop_eq]
  apply loopFrom_first_none
  · omega
  · simp [leftCountStep, goesLeft, rd]

/-- Every decision node of a tree that `build_tree` returns for a range starting at row 0 tests a
column of the matrix. -/
theorem build_tree_featuresBelow (d : Nat) :
    ∀ (X y : List Int) (end_ : Int) (nf : Int) (t : Node),
      build_tree X y 0 end_ d nf = some t → t.featuresBelow nf := by
  induction d with
  | zero =>
    intro X y e nf t h
    obtain ⟨c, -, (⟨rfl, -⟩ | ⟨d, _, _, _, _, _, hd, -⟩)⟩ := build_tree_inv h
    · trivial
    · omega
  | succ d ih =>
    intro X y e nf t h
    obtain ⟨c, hc, (⟨rfl, -⟩ |
        ⟨d', best, lc, p, l, r, hd, hc1, -, hbest, -, hlc, -, hl, hr, rfl⟩)⟩ :=
      build_tree_inv h
    · trivial
    · obtain rfl : d' = d := by omega
      have hne : (0 : Int) ≤ e := countLabels_nonempty hc hc1
      have hf : 0 ≤ best.best_feature_index ∧ best.best_feature_index < nf := by
        rcases best_split_feature_index hbest with hm | hf
        · rw [hm, leftCount_sentinel_none X e nf _ hne] at hlc
          cases hlc
        · exact hf
      exact ⟨hf.1, hf.2, ih _ _ _ _ _ hl, ih _ _ _ _ _ hr⟩

/-- On a sample with at least `num_features` entries, `predict_single` returns the value of a
leaf of the tree when every decision node tests a column below `num_features`. -/
theorem predict_single_mem_leafValues (t : Node) (sample : List Int) (nf nf' : Int)
    (ht : t.featuresBelow nf) (hs : nf ≤ sample.length) :
    ∃ v, predict_single t sample nf' = some v ∧ v ∈ t.leafValues := by
  induction t with
  | leaf v => exact ⟨v, rfl, by simp [Node.leafValues]⟩
  | decision f th l r ihl ihr =>
    obtain ⟨hf0, hf1, hl, hr⟩ := ht
    obtain ⟨x, hx⟩ := rd_of_lt (a := sample) hf0 (by omega)
    simp only [predict_single, hx, Node.leafValues, List.mem_append]
    by_cases hle : Dbl.le (Dbl.ofInt x) th = true
    · rw [if_pos hle]
      obtain ⟨v, hv, hm⟩ := ihl hl
      exact ⟨v, hv, Or.inl hm⟩
    · rw [if_neg hle]
      obtain ⟨v, hv, hm⟩ := ihr hr
      exact ⟨v, hv, Or.inr hm⟩

/-! ## An empty training set -/

/-- C11 as stated fails: `fit` with `num_samples = 0` does not fail, it returns a tree. -/
theorem fit_zero_samples_returns :
    fit new [] [] 0 1 3 ≠ none ∧
    fit new mainX mainY 0 3 3 = some ⟨some (Node.leaf (Dbl.ofInt 1))⟩ := by
  decide!

/-- C11, amended: `fit` with `num_samples = 0` raises no error; it reads no row and returns a
single leaf of value 1, whatever the other arguments are. -/
theorem fit_zero_samples (self : DecisionTree) (X y : List Int) (num_features : Int)
    (max_depth : Nat) :
    fit self X y 0 num_features max_depth = some ⟨some (Node.leaf (Dbl.ofInt 1))⟩ := by
  have hc : countLabels y 0 (0 - 1) = some (0, 0) := rfl
  have hb : build_tree X y 0 (0 - 1) max_depth num_features
      = some (Node.leaf (Dbl.ofInt 1)) := by
    cases max_depth with
    | zero => rw [build_tree_zero, hc]; rfl
    | succ d =>
      unfold build_tree
      rw [hc]
      rfl
  unfold fit
  rw [hb]

/-! ## Termination of the recursion -/

/-- C18: for a depth `depth ≥ 0` the recursion of `build_tree` ends: a call with `depth = 0`
returns without a nested call, a nested call gets `depth - 1`, and a bound of `depth + 1` nested
calls is never reached; the result is the one of the structural recursion on `depth`. -/
theorem build_tree_terminates (depth : Nat) :
    ∀ (fuel : Nat) (X y : List Int) (start end_ num_features : Int), depth < fuel →
      build_tree_fuel fuel X y start end_ (depth : Int) num_features
        = some (build_tree X y start end_ depth num_features) := by
  induction depth with
  | zero =>
    intro fuel X y s e nf hf
    obtain ⟨k, rfl⟩ : ∃ k, fuel = k + 1 := ⟨fuel - 1, by omega⟩
    rw [build_tree_zero]
    unfold build_tree_fuel
    cases countLabels y s e with
    | none => rfl
    | some c => simp
  | succ d ih =>
    intro fuel X y s e nf hf
    obtain ⟨k, rfl⟩ : ∃ k, fuel = k + 1 := ⟨fuel - 1, by omega⟩
    have hk : d < k := by omega
    have hd : ((d + 1 : Nat) : Int) - 1 = (d : Int) := by push_cast; ring
    have hne : ¬ ((d + 1 : Nat) : Int) = 0 := by push_cast; omega
    unfold build_tree_fuel build_tree
    cases countLabels y s e with
    | none => rfl
    | some c =>
      simp only [hne, false_or, hd]
      by_cases hp : c.1 = 0 ∨ c.2 = 0
      · rw [if_pos hp, if_pos hp]
      · rw [if_neg hp, if_neg hp]
        cases best_split X y s e nf with
        | none => rfl
        | some best =>
          simp only
          by_cases hg : Dbl.beq best.best_gain (Dbl.fin 0) = true
          · rw [if_pos hg, if_pos hg]
          · rw [if_neg hg, if_neg hg]
            cases forLoop s e (leftCountStep X nf best.best_feature_index
                best.best_threshold) 0 with
            | none => rfl
            | some lc =>
              simp only
              cases forLoop s e (partStep X y nf best.best_feature_index
                  best.best_threshold) ⟨[], [], [], []⟩ with
              | none => rfl
              | some p =>
                simp only
                rw [ih k p.left_X p.left_y 0 (lc - 1) nf hk,
                  ih k p.right_X p.right_y 0 (e - s + 1 - lc - 1) nf hk]
                cases build_tree p.left_X p.left_y 0 (lc - 1) d nf with
                | none => rfl
                | some l =>
                  simp only
                  cases build_tree p.right_X p.right_y 0 (e - s + 1 - lc - 1) d nf with
                  | none => rfl
                  | some r => rfl

theorem build_tree_terminates_witness :
    build_tree_fuel 4 mainX mainY 0 9 ((3 : Nat) : Int) 3
      = some (build_tree mainX mainY 0 9 3 3) :=
  build_tree_terminates 3 4 mainX mainY 0 9 3 (by decide)

/-! ## Loops as folds over the list of indices -/

theorem idxFrom_succ_last (n : Nat) : ∀ (i : Int),
    idxFrom i (n + 1) = idxFrom i n ++ [i + (n : Int)] := by
  induction n with
  | zero => intro i; simp [idxFrom]
  | succ n ih =>
    intro i
    have e : i + 1 + (n : Int) = i + ((n + 1 : Nat) : Int) := by push_cast; ring
    rw [idxFrom, ih (i + 1), e]
    rfl

theorem mem_idxFrom (n : Nat) : ∀ (i j : Int), j ∈ idxFrom i n ↔ i ≤ j ∧ j < i + n := by
  induction n with
  | zero => intro i j; simp [idxFrom]
  | succ n ih =>
    intro i j
    simp only [idxFrom, List.mem_cons, ih (i + 1) j]
    push_cast
    omega

theorem length_idxFrom (n : Nat) : ∀ (i : Int), (idxFrom i n).length = n := by
  induction n with
  | zero => intro i; rfl
  | succ n ih => intro i; simp [idxFrom, ih (i + 1)]

theorem mem_rangeIdx {start end_ j : Int} :
    j ∈ rangeIdx start end_ ↔ start ≤ j ∧ j ≤ end_ := by
  unfold rangeIdx
  rw [mem_idxFrom]
  omega

/-- A loop whose state after the indices `idx` is `F idx` ends in the state `F` of all its
indices. -/
theorem loopFrom_fold_spec_aux {σ : Type} (body : σ → Int → Option σ) (F : List Int → σ)
    (start : Int)
    (hstep : ∀ (m : Nat) (u' : σ), body (F (idxFrom start m)) (start + (m : Int)) = some u' →
      u' = F (idxFrom start (m + 1))) :
    ∀ (n m : Nat) (s' : σ),
      loopFrom body n (start + (m : Int)) (F (idxFrom start m)) = some s' →
      s' = F (idxFrom start (m + n)) := by
  intro n
  induction n with
  | zero =>
    intro m s' h
    simp only [loopFrom, Option.some.injEq] at h
    exact h.symm
  | succ n ih =>
    intro m s' h
    simp only [loopFrom] at h
    cases hb : body (F (idxFrom start m)) (start + (m : Int)) with
    | none => simp [hb] at h
    | some u =>
      simp only [hb] at h
      have hu := hstep m u hb
      subst hu
      have e : start + (m : Int) + 1 = start + ((m + 1 : Nat) : Int) := by push_cast; ring
      rw [e] at h
      have := ih (m + 1) s' h
      rw [this]
      congr 2
      omega

theorem loopFrom_fold_spec {σ : Type} (body : σ → Int → Option σ) (F : List Int → σ)
    (start : Int) (n : Nat) (s' : σ)
    (hstep : ∀ (m : Nat) (u' : σ), body (F (idxFrom start m)) (start + (m : Int)) = some u' →
      u' = F (idxFrom start (m + 1)))
    (h : loopFrom body n start (F []) = some s') :
    s' = F (idxFrom start n) := by
  have := loopFrom_fold_spec_aux body F start hstep n 0 s'
  simp only [Nat.cast_zero, add_zero, idxFrom, Nat.zero_add] at this
  exact this h

/-- When a loop returns, every one of its iterations returned. -/
theorem loopFrom_all {σ : Type} (body : σ → Int → Option σ) (Q : Int → Prop)
    (hQ : ∀ (u : σ) (k : Int) (u' : σ), body u k = some u' → Q k) (n : Nat) :
    ∀ (i : Int) (s s' : σ), loopFrom body n i s = some s' →
      ∀ k, i ≤ k → k < i + n → Q k := by
  induction n with
  | zero => intro i s s' _ k h1 h2; simp at h2; omega
  | succ n ih =>
    intro i s s' h k h1 h2
    simp only [loopFrom] at h
    cases hb : body s i with
    | none => simp [hb] at h
    | some u =>
      simp only [hb] at h
      by_cases hk : k = i
      · subst hk; exact hQ s k u hb
      · exact ih (i + 1) u s' h k (by omega) (by push_cast at h2; omega)

/-! ## The partition of a range -/

/-- `copyRow` appends row `i` to `dst`, and every entry of the row is inside `X`. -/
theorem copyRow_spec {X : List Int} {nf i : Int} {dst d : List Int}
    (h : copyRow X nf i dst = some d) :
    d = dst ++ rowAt X nf i ∧ (rowAt X nf i).length = nf.toNat := by
  unfold copyRow at h
  rw [forLoop_eq] at h
  have hn : (nf - 1 + 1 - 0).toNat = nf.toNat := by congr 1; ring
  constructor
  · have := loopFrom_fold_spec _
      (fun js => dst ++ js.filterMap (fun j => rd X (i * nf + j))) 0 _ d ?_ (by simpa using h)
    · simpa [rowAt, rangeIdx] using this
    · intro m u' hu
      simp only [zero_add] at hu
      show u' = dst ++ (idxFrom 0 (m + 1)).filterMap (fun j => rd X (i * nf + j))
      cases hr : rd X (i * nf + (m : Int)) with
      | none => simp [hr] at hu
      | some v =>
        simp only [hr, Option.some.injEq] at hu
        rw [← hu, idxFrom_succ_last, List.filterMap_append]
        simp [hr]
  · have hall := loopFrom_all _ (fun j => (rd X (i * nf + j)).isSome = true) ?_ _ 0 dst d h
    · unfold rowAt rangeIdx
      rw [hn] at hall ⊢
      have : ∀ (n : Nat) (a : Int), (∀ k, a ≤ k → k < a + n →
          (rd X (i * nf + k)).isSome = true) →
          ((idxFrom a n).filterMap (fun j => rd X (i * nf + j))).length = n := by
        intro n
        induction n with
        | zero => intro a _; rfl
        | succ n ih =>
          intro a ha
          have h0 := ha a le_rfl (by push_cast; omega)
          obtain ⟨v, hv⟩ := Option.isSome_iff_exists.mp h0
          simp only [idxFrom, List.filterMap_cons, hv, List.length_cons]
          rw [ih (a + 1) (fun k h1 h2 => ha k (by omega) (by push_cast; omega))]
      exact this _ 0 hall
    · intro u k u' hu
      cases hr : rd X (i * nf + k) with
      | none => simp [hr] at hu
      | some v => rfl
/-- The loop of `build_tree` that counts `left_count` returns the number of rows going left. -/
theorem leftCount_spec {X : List Int} {start end_ nf f : Int} {th : Dbl} {lc : Int}
    (h : forLoop start end_ (leftCountStep X nf f th) 0 = some lc) :
    lc = ((leftRows X start end_ nf f th).length : Int) := by
  rw [forLoop_eq] at h
  have := loopFrom_fold_spec (leftCountStep X nf f th)
    (fun idx => ((idx.filter
      (fun i => decide (goesLeft X i nf f th = some true))).length : Int))
    start _ lc ?_ (by simpa using h)
  · simpa [leftRows, rangeIdx] using this
  · intro m u' hu
    show u' = (((idxFrom start (m + 1)).filter
      (fun i => decide (goesLeft X i nf f th = some true))).length : Int)
    rw [idxFrom_succ_last, List.filter_append, List.length_append]
    unfold leftCountStep at hu
    cases hg : goesLeft X (start + (m : Int)) nf f th with
    | none => simp [hg] at hu
    | some b =>
      cases b <;> simp [hg] at hu <;> simp [hg, ← hu]

/-- One iteration of the partition loop: the row is tested, has a label, is copied whole, and
goes with its label to the end of the left or of the right working set. -/
theorem partStep_some {X y : List Int} {nf f i : Int} {th : Dbl} {p p' : Parts}
    (h : partStep X y nf f th p i = some p') :
    ∃ b l, goesLeft X i nf f th = some b ∧ rd y i = some l ∧
      (rowAt X nf i).length = nf.toNat ∧
      p' = (if b then ⟨p.left_X ++ rowAt X nf i, p.left_y ++ [l], p.right_X, p.right_y⟩
            else ⟨p.left_X, p.left_y, p.right_X ++ rowAt X nf i, p.right_y ++ [l]⟩) := by
  unfold partStep at h
  cases hg : goesLeft X i nf f th with
  | none => simp [hg] at h
  | some b =>
    cases b
    · simp only [hg] at h
      cases hc : copyRow X nf i p.right_X with
      | none => simp [hc] at h
      | some rx =>
        simp only [hc] at h
        cases hy : rd y i with
        | none => simp [hy] at h
        | some l =>
          simp only [hy, Option.some.injEq] at h
          refine ⟨false, l, rfl, rfl, (copyRow_spec hc).2, ?_⟩
          rw [← h, (copyRow_spec hc).1]
          rfl
    · simp only [hg] at h
      cases hc : copyRow X nf i p.left_X with
      | none => simp [hc] at h
      | some lx =>
        simp only [hc] at h
        cases hy : rd y i with
        | none => simp [hy] at h
        | some l =>
          simp only [hy, Option.some.injEq] at h
          refine ⟨true, l, rfl, rfl, (copyRow_spec hc).2, ?_⟩
          rw [← h, (copyRow_spec hc).1]
          rfl

/-- The partition loop of `build_tree` appends, in the order of the range, every row going left
and its label to `left_X`, `left_y`, and every other row and its label to `right_X`,
`right_y`. -/
theorem partLoop_spec {X y : List Int} {start end_ nf f : Int} {th : Dbl} {p : Parts}
    (h : forLoop start end_ (partStep X y nf f th) ⟨[], [], [], []⟩ = some p) :
    p = ⟨(leftRows X start end_ nf f th).flatMap (rowAt X nf),
         (leftRows X start end_ nf f th).filterMap (rd y),
         (rightRows X start end_ nf f th).flatMap (rowAt X nf),
         (rightRows X start end_ nf f th).filterMap (rd y)⟩ := by
  rw [forLoop_eq] at h
  have := loopFrom_fold_spec (partStep X y nf f th)
    (fun idx =>
      (⟨(idx.filter (fun i => decide (goesLeft X i nf f th = some true))).flatMap (rowAt X nf),
        (idx.filter (fun i => decide (goesLeft X i nf f th = some true))).filterMap (rd y),
        (idx.filter (fun i => decide (goesLeft X i nf f th = some false))).flatMap (rowAt X nf),
        (idx.filter (fun i => decide (goesLeft X i nf f th = some false))).filterMap (rd y)⟩
        : Parts))
    start _ p ?_ (by simpa using h)
  · simpa [leftRows, rightRows, rangeIdx] using this
  · intro m u' hu
    obtain ⟨b, l, hg, hy, -, hu'⟩ := partStep_some hu
    rw [hu']
    simp only [idxFrom_succ_last, List.filter_append, List.flatMap_append,
      List.filterMap_append]
    cases b <;> simp [hg, hy]

/-- When the partition loop returns, every row of the range was tested, has a label and was
copied whole. -/
theorem partLoop_reads {X y : List Int} {start end_ nf f : Int} {th : Dbl} {p : Parts}
    (h : forLoop start end_ (partStep X y nf f th) ⟨[], [], [], []⟩ = some p) :
    ∀ i ∈ rangeIdx start end_,
      (∃ b, goesLeft X i nf f th = some b) ∧ (rd y i).isSome = true ∧
      (rowAt X nf i).length = nf.toNat := by
  intro i hi
  rw [mem_rangeIdx] at hi
  rw [forLoop_eq] at h
  refine loopFrom_all (partStep X y nf f th)
    (fun i => (∃ b, goesLeft X i nf f th = some b) ∧ (rd y i).isSome = true ∧
      (rowAt X nf i).length = nf.toNat) ?_ _ start _ p h i hi.1 (by omega)
  intro u k u' hu
  obtain ⟨b, l, hg, hy, hrow, -⟩ := partStep_some hu
  exact ⟨⟨b, hg⟩, by simp [hy], hrow⟩

/-- When every row of the range was tested, the rows going left and the rows going right make up
the range. -/
theorem length_leftRows_add_rightRows {X : List Int} {start end_ nf f : Int} {th : Dbl}
    (hse : start ≤ end_ + 1)
    (hall : ∀ i ∈ rangeIdx start end_, ∃ b, goesLeft X i nf f th = some b) :
    ((leftRows X start end_ nf f th).length : Int) + (rightRows X start end_ nf f th).length
      = rangeSize start end_ := by
  have hlen : ((rangeIdx start end_).length : Int) = rangeSize start end_ := by
    unfold rangeIdx rangeSize
    rw [length_idxFrom]
    omega
  have hR : rightRows X start end_ nf f th = (rangeIdx start end_).filter
      (fun i => !decide (goesLeft X i nf f th = some true)) := by
    unfold rightRows
    apply List.filter_congr
    intro i hi
    obtain ⟨b, hb⟩ := hall i hi
    cases b <;> simp [hb]
  have hadd := List.length_eq_length_filter_add (l := rangeIdx start end_)
    (fun i => decide (goesLeft X i nf f th = some true))
  rw [← hlen, hR]
  unfold leftRows
  omega

/-- C14: when `build_tree` splits a range on `(feature_index, threshold)`, the left child is built
from the rows of the range with value `<= threshold`, in the order of the range, each row whole
and with its label, the right child from the rows with value `> threshold`; the two working sets
have `left_count + right_count` = the size of the range, and every row is in exactly one. -/
theorem build_tree_split_partition (X y : List Int) (start end_ : Int) (depth : Nat)
    (num_features feature_index : Int) (threshold : Dbl) (left right : Node)
    (h : build_tree X y start end_ depth num_features
      = some (Node.decision feature_index threshold left right)) :
    ∃ d, depth = d + 1 ∧
      build_tree
        ((leftRows X start end_ num_features feature_index threshold).flatMap
          (rowAt X num_features))
        ((leftRows X start end_ num_features feature_index threshold).filterMap (rd y))
        0 ((leftRows X start end_ num_features feature_index threshold).length - 1) d
        num_features = some left ∧
      build_tree
        ((rightRows X start end_ num_features feature_index threshold).flatMap
          (rowAt X num_features))
        ((rightRows X start end_ num_features feature_index threshold).filterMap (rd y))
        0 ((rightRows X start end_ num_features feature_index threshold).length - 1) d
        num_features = some right ∧
      ((leftRows X start end_ num_features feature_index threshold).length : Int)
        + (rightRows X start end_ num_features feature_index threshold).length
        = rangeSize start end_ ∧
      ∀ i ∈ rangeIdx start end_,
        (i ∈ leftRows X start end_ num_features feature_index threshold ↔
          i ∉ rightRows X start end_ num_features feature_index threshold) ∧
        (rd y i).isSome = true ∧ (rowAt X num_features i).length = num_features.toNat := by
  obtain ⟨c, hc, (⟨ht, -⟩ | ⟨d, best, lc, p, l, r, hd, hc1, -, -, -, hlc, hp, hl, hr, ht⟩)⟩ :=
    build_tree_inv h
  · cases ht
  · obtain ⟨rfl, rfl, rfl, rfl⟩ := Node.decision.inj ht
    have hse : start ≤ end_ := countLabels_nonempty hc hc1
    have hreads := partLoop_reads hp
    have hsum := @length_leftRows_add_rightRows X start end_ num_features
      best.best_feature_index best.best_threshold (by omega : start ≤ end_ + 1)
      (fun i hi => (hreads i hi).1)
    have hpe := partLoop_spec hp
    have hlce := leftCount_spec hlc
    subst hpe
    subst hlce
    refine ⟨d, hd, hl, ?_, hsum, ?_⟩
    · have e : end_ - start + 1
          - ((leftRows X start end_ num_features best.best_feature_index
              best.best_threshold).length : Int) - 1
          = ((rightRows X start end_ num_features best.best_feature_index
              best.best_threshold).length : Int) - 1 := by
        unfold rangeSize at hsum
        omega
      rw [← e]
      exact hr
    · intro i hi
      obtain ⟨⟨b, hb⟩, hy, hrow⟩ := hreads i hi
      refine ⟨?_, hy, hrow⟩
      unfold leftRows rightRows
      simp only [List.mem_filter, hi, true_and, hb]
      cases b <;> simp

theorem build_tree_split_partition_witness :
    ∃ d, 1 = d + 1 ∧
      build_tree ((leftRows [3, 8, 1] 0 2 1 0 (Dbl.fin 1)).flatMap (rowAt [3, 8, 1] 1))
        ((leftRows [3, 8, 1] 0 2 1 0 (Dbl.fin 1)).filterMap (rd [0, 0, 1]))
        0 ((leftRows [3, 8, 1] 0 2 1 0 (Dbl.fin 1)).length - 1) d 1
        = some (Node.leaf (Dbl.fin 1)) ∧
      build_tree ((rightRows [3, 8, 1] 0 2 1 0 (Dbl.fin 1)).flatMap (rowAt [3, 8, 1] 1))
        ((rightRows [3, 8, 1] 0 2 1 0 (Dbl.fin 1)).filterMap (rd [0, 0, 1]))
        0 ((rightRows [3, 8, 1] 0 2 1 0 (Dbl.fin 1)).length - 1) d 1
        = some (Node.leaf (Dbl.fin 0)) ∧
      ((leftRows [3, 8, 1] 0 2 1 0 (Dbl.fin 1)).length : Int)
        + (rightRows [3, 8, 1] 0 2 1 0 (Dbl.fin 1)).length = rangeSize 0 2 ∧
      ∀ i ∈ rangeIdx 0 2,
        (i ∈ leftRows [3, 8, 1] 0 2 1 0 (Dbl.fin 1) ↔
          i ∉ rightRows [3, 8, 1] 0 2 1 0 (Dbl.fin 1)) ∧
        (rd [0, 0, 1] i).isSome = true ∧ (rowAt [3, 8, 1] 1 i).length = (1 : Int).toNat :=
  build_tree_split_partition [3, 8, 1] [0, 0, 1] 0 2 1 1 0 (Dbl.fin 1)
    (Node.leaf (Dbl.fin 1)) (Node.leaf (Dbl.fin 0)) (by decide!)

/-! ## Comparisons of doubles -/

theorem Dbl.gt_irrefl (a : Dbl) : Dbl.gt a a = false := by
  cases a <;> simp [Dbl.gt, Dbl.lt]

theorem Dbl.beq_eq {a b : Dbl} (h : Dbl.beq a b = true) : a = b := by
  cases a <;> cases b <;> simp [Dbl.beq] at h ⊢
  exact h

theorem Dbl.gt_of_gt_of_not_gt {g g' b : Dbl} (h1 : Dbl.gt g b = true)
    (h2 : Dbl.gt g' b = false) : Dbl.gt g' g = false := by
  cases g <;> cases g' <;> cases b <;> simp [Dbl.gt, Dbl.lt] at h1 h2 ⊢
  linarith

theorem Dbl.beq_false_of_gt_of_not_gt {g g' b : Dbl} (h1 : Dbl.gt g b = true)
    (h2 : Dbl.gt g' b = false) : Dbl.beq g' g = false := by
  cases g <;> cases g' <;> cases b <;> simp [Dbl.gt, Dbl.lt, Dbl.beq] at h1 h2 ⊢
  intro h
  subst h
  linarith

theorem Dbl.gt_trans {a b c : Dbl} (h1 : Dbl.gt a b = true) (h2 : Dbl.gt b c = true) :
    Dbl.gt a c = true := by
  cases a <;> cases b <;> cases c <;> simp [Dbl.gt, Dbl.lt] at h1 h2 ⊢
  linarith

theorem Dbl.ne_nan_of_gt {a b : Dbl} (h : Dbl.gt a b = true) : a ≠ Dbl.nan := by
  intro ha
  subst ha
  cases b <;> simp [Dbl.gt, Dbl.lt] at h

theorem Dbl.eq_of_not_gt_of_not_gt {a b : Dbl} (ha : a ≠ Dbl.nan) (hb : b ≠ Dbl.nan)
    (h1 : Dbl.gt a b = false) (h2 : Dbl.gt b a = false) : a = b := by
  cases a <;> cases b <;> simp [Dbl.gt, Dbl.lt] at h1 h2 ha hb ⊢
  linarith

theorem Dbl.mul_nan (a : Dbl) : Dbl.mul a Dbl.nan = Dbl.nan := by
  cases a <;> rfl

theorem Dbl.add_nan (a : Dbl) : Dbl.add a Dbl.nan = Dbl.nan := by
  cases a <;> rfl

theorem Dbl.nan_add (a : Dbl) : Dbl.add Dbl.nan a = Dbl.nan := by
  cases a <;> rfl

theorem Dbl.sub_nan (a : Dbl) : Dbl.sub a Dbl.nan = Dbl.nan := by
  cases a <;> rfl

/-- An index-dependent property kept by every iteration holds after the loop. -/
theorem loopFrom_invariant_idx {σ : Type} (body : σ → Int → Option σ) (P : Int → σ → Prop)
    (n : Nat) : ∀ (i : Int) (s s' : σ),
      (∀ (u : σ) (k : Int) (u' : σ), i ≤ k → k < i + n → P k u → body u k = some u' →
        P (k + 1) u') →
      P i s → loopFrom body n i s = some s' → P (i + n) s' := by
  induction n with
  | zero =>
    intro i s s' _ hs h
    simp only [loopFrom, Option.some.injEq] at h
    simpa [← h] using hs
  | succ n ih =>
    intro i s s' hstep hs h
    simp only [loopFrom] at h
    cases hb : body s i with
    | none => simp [hb] at h
    | some u =>
      simp only [hb] at h
      have e : i + ((n + 1 : Nat) : Int) = i + 1 + (n : Int) := by push_cast; ring
      rw [e]
      refine ih (i + 1) u s' ?_ (hstep s i u le_rfl (by push_cast; omega) hs hb) h
      intro v k v' hk1 hk2 hv hbv
      exact hstep v k v' (by omega) (by push_cast; omega) hv hbv

/-! ## The search of `best_split` -/

/-- One candidate more: the invariant of `best_split` is kept by the body of its inner loop. -/
theorem splitStep_inv {X y : List Int} {start end_ nf f k : Int} {best best' : Split}
    (hc : IsCandidate start end_ nf f k)
    (hinv : SplitInv X y start end_ nf f k best)
    (h : splitStep X y start end_ nf f best k = some best') :
    SplitInv X y start end_ nf f (k + 1) best' := by
  obtain ⟨hA, hB⟩ := hinv
  unfold splitStep at h
  cases hr : rd X (k * nf + f) with
  | none => simp [hr] at h
  | some v =>
    simp only [hr] at h
    cases hg : calculate_information_gain X y start end_ f (Dbl.ofInt v) nf with
    | none => simp [hg] at h
    | some g =>
      simp only [hg] at h
      have hcg : candidateGain X y start end_ nf f k = some g := by
        simp [candidateGain, hr, hg]
      have hbef : ∀ f' i', Before f' i' f (k + 1) → Before f' i' f k ∨ (f' = f ∧ i' = k) := by
        intro f' i' hb
        unfold Before at hb ⊢
        omega
      by_cases hgt : Dbl.gt g best.best_gain = true
      · rw [if_pos hgt] at h
        cases h
        constructor
        · intro f' i' hc' hb'
          rcases hbef f' i' hb' with hold | ⟨rfl, rfl⟩
          · obtain ⟨g', hg', hle⟩ := hA f' i' hc' hold
            exact ⟨g', hg', Dbl.gt_of_gt_of_not_gt hgt hle⟩
          · exact ⟨g, hcg, Dbl.gt_irrefl g⟩
        · right
          refine ⟨f, k, v, hc, Or.inr ⟨rfl, by omega⟩, hr, hcg, rfl, rfl, ?_, ?_⟩
          · rcases hB with hs | ⟨_, _, _, _, _, _, _, _, _, hpos, _⟩
            · rw [hs] at hgt
              exact hgt
            · exact Dbl.gt_trans hgt hpos
          · intro f' i' hc' hb'
            obtain ⟨g', hg', hle⟩ := hA f' i' hc' hb'
            exact ⟨g', hg', Dbl.beq_false_of_gt_of_not_gt hgt hle⟩
      · rw [if_neg hgt] at h
        cases h
        have hgt' : Dbl.gt g best.best_gain = false := by
          cases hx : Dbl.gt g best.best_gain
          · rfl
          · exact absurd hx hgt
        constructor
        · intro f' i' hc' hb'
          rcases hbef f' i' hb' with hold | ⟨rfl, rfl⟩
          · exact hA f' i' hc' hold
          · exact ⟨g, hcg, hgt'⟩
        · rcases hB with hs | ⟨f0, i0, v0, h1, h2, h3, h4, h5, h6, h7, h8⟩
          · exact Or.inl hs
          · right
            refine ⟨f0, i0, v0, h1, ?_, h3, h4, h5, h6, h7, h8⟩
            unfold Before at h2 ⊢
            omega

/-- What `best_split` returns: no candidate has a greater gain, and the result is either the
initial `(-1, 0.0, -1.0)` or the first candidate, in the order of the two loops, that has the
returned gain; a returned candidate gain is greater than -1. -/
theorem best_split_spec {X y : List Int} {start end_ nf : Int} {best : Split}
    (h : best_split X y start end_ nf = some best) :
    (∀ f i, IsCandidate start end_ nf f i →
      ∃ g, candidateGain X y start end_ nf f i = some g ∧ Dbl.gt g best.best_gain = false) ∧
    (best = ⟨-1, Dbl.fin 0, Dbl.fin (-1)⟩ ∨
      ∃ f0 i0 v0, IsCandidate start end_ nf f0 i0 ∧
        rd X (i0 * nf + f0) = some v0 ∧
        candidateGain X y start end_ nf f0 i0 = some best.best_gain ∧
        best.best_feature_index = f0 ∧ best.best_threshold = Dbl.ofInt v0 ∧
        Dbl.gt best.best_gain (Dbl.fin (-1)) = true ∧
        ∀ f' i', IsCandidate start end_ nf f' i' → Before f' i' f0 i0 →
          ∃ g, candidateGain X y start end_ nf f' i' = some g ∧
            Dbl.beq g best.best_gain = false) := by
  unfold best_split at h
  rw [forLoop_eq] at h
  have hfin := loopFrom_invariant_idx _
    (fun f s => SplitInv X y start end_ nf f start s) _ 0 _ best ?_ ?_ h
  · obtain ⟨hA, hB⟩ := hfin
    constructor
    · intro f i hc
      refine hA f i hc (Or.inl ?_)
      unfold IsCandidate at hc
      omega
    · rcases hB with hs | ⟨f0, i0, v0, h1, _, h3, h4, h5, h6, h7, h8⟩
      · exact Or.inl hs
      · exact Or.inr ⟨f0, i0, v0, h1, h3, h4, h5, h6, h7, h8⟩
  · intro u f u' hf0 hf1 hu hbody
    rw [forLoop_eq] at hbody
    have hin := loopFrom_invariant_idx _
      (fun k s => SplitInv X y start end_ nf f k s) _ start u u' ?_ hu hbody
    · obtain ⟨hA, hB⟩ := hin
      constructor
      · intro f' i' hc' hb'
        refine hA f' i' hc' ?_
        unfold IsCandidate at hc'
        unfold Before at hb' ⊢
        omega
      · rcases hB with hs | ⟨f0, i0, v0, h1, h2, h3, h4, h5, h6, h7, h8⟩
        · exact Or.inl hs
        · right
          refine ⟨f0, i0, v0, h1, ?_, h3, h4, h5, h6, h7, h8⟩
          unfold IsCandidate at h1
          unfold Before at h2 ⊢
          omega
    · intro w k w' hk0 hk1 hw hstep
      exact splitStep_inv ⟨hf0, by omega, hk0, by omega⟩ hw hstep
  · constructor
    · intro f' i' hc' hb'
      unfold IsCandidate at hc'
      unfold Before at hb'
      omega
    · exact Or.inl rfl

/-! ## The gain of a candidate -/

/-- The first loop of `calculate_information_gain` counts the rows going left and the rows going
right, and tests every row of the range. -/
theorem sideCount_spec {X : List Int} {start end_ nf f : Int} {th : Dbl} {c : Int × Int}
    (h : forLoop start end_ (sideCountStep X nf f th) (0, 0) = some c) :
    c = (((leftRows X start end_ nf f th).length : Int),
         ((rightRows X start end_ nf f th).length : Int)) ∧
    ∀ i ∈ rangeIdx start end_, ∃ b, goesLeft X i nf f th = some b := by
  rw [forLoop_eq] at h
  constructor
  · have := loopFrom_fold_spec (sideCountStep X nf f th)
      (fun idx =>
        ((((idx.filter (fun i => decide (goesLeft X i nf f th = some true))).length : Int)),
         (((idx.filter (fun i => decide (goesLeft X i nf f th = some false))).length : Int))))
      start _ c ?_ (by simpa using h)
    · simpa [leftRows, rightRows, rangeIdx] using this
    · intro m u' hu
      show u' = ((((idxFrom start (m + 1)).filter _).length : Int),
        (((idxFrom start (m + 1)).filter _).length : Int))
      rw [idxFrom_succ_last]
      simp only [List.filter_append, List.length_append]
      unfold sideCountStep at hu
      cases hg : goesLeft X (start + (m : Int)) nf f th with
      | none => simp [hg] at hu
      | some b =>
        cases b <;> simp [hg] at hu <;> simp [hg, ← hu]
  · intro i hi
    rw [mem_rangeIdx] at hi
    refine loopFrom_all (sideCountStep X nf f th)
      (fun i => ∃ b, goesLeft X i nf f th = some b) ?_ _ start _ c h i hi.1 (by omega)
    intro u k u' hu
    unfold sideCountStep at hu
    cases hg : goesLeft X k nf f th with
    | none => simp [hg] at hu
    | some b => exact ⟨b, rfl⟩

/-- On a range of no row `calculate_gini` divides 0.0 by 0 and returns NaN. -/
theorem calculate_gini_empty (l : List Int) : calculate_gini l 0 (0 - 1) = some Dbl.nan := by
  have hc : countLabels l 0 (0 - 1) = some (0, 0) := rfl
  unfold calculate_gini
  rw [hc]
  simp [Dbl.div, Dbl.ofInt, Dbl.mul, Dbl.add, Dbl.sub, Dbl.neg]

/-- On a range of at least one row a value returned by `calculate_gini` is finite and lies
between 0 and 1/2. -/
theorem calculate_gini_some_bounds {y : List Int} {start end_ : Int} {g : Dbl}
    (h : calculate_gini y start end_ = some g) (hse : start ≤ end_) :
    ∃ q : ℚ, g = Dbl.fin q ∧ 0 ≤ q ∧ q ≤ 1 / 2 := by
  cases hc : countLabels y start end_ with
  | none => simp [calculate_gini, hc] at h
  | some c =>
    obtain ⟨a, b, hcl, ha, hb, hab, -, -⟩ := countLabels_spec hse (countLabels_valid hc)
    have hn : end_ - start + 1 ≠ 0 := by omega
    have hnq : ((end_ - start + 1 : Int) : ℚ) ≠ 0 := by exact_mod_cast hn
    have habq : (a : ℚ) + (b : ℚ) = ((end_ - start + 1 : Int) : ℚ) := by exact_mod_cast hab
    have haq : (0 : ℚ) ≤ a := by exact_mod_cast ha
    have hbq : (0 : ℚ) ≤ b := by exact_mod_cast hb
    rw [calculate_gini_of_counts hcl hn, Option.some.injEq] at h
    refine ⟨_, h.symm, ?_, ?_⟩
    · rw [gini_formula _ _ _ hnq habq]
      positivity
    · rw [gini_formula _ _ _ hnq habq, div_le_iff₀ (by positivity)]
      rw [← habq]
      nlinarith [sq_nonneg ((a : ℚ) - b)]

/-- A gain returned by `calculate_information_gain` is NaN, or it is a finite value greater
than -1 and at least one row goes to each side. -/
theorem information_gain_cases {X y : List Int} {start end_ f nf : Int} {th g : Dbl}
    (h : calculate_information_gain X y start end_ f th nf = some g) :
    g = Dbl.nan ∨
      ∃ q : ℚ, g = Dbl.fin q ∧ -1 < q ∧
        1 ≤ (leftRows X start end_ nf f th).length ∧
        1 ≤ (rightRows X start end_ nf f th).length := by
  unfold calculate_information_gain at h
  cases hc : forLoop start end_ (sideCountStep X nf f th) (0, 0) with
  | none => rw [hc] at h; simp at h
  | some c =>
    obtain ⟨hce, hall⟩ := sideCount_spec hc
    subst hce
    simp only [hc] at h
    cases hl : forLoop start end_ (sideLabelStep X y nf f th) ([], []) with
    | none => simp [hl] at h
    | some lr =>
      obtain ⟨ly, ry⟩ := lr
      simp only [hl] at h
      cases hgl : calculate_gini ly 0
          (((leftRows X start end_ nf f th).length : Int) - 1) with
      | none => simp [hgl] at h
      | some gl =>
        simp only [hgl] at h
        cases hgr : calculate_gini ry 0
            (((rightRows X start end_ nf f th).length : Int) - 1) with
        | none => simp [hgr] at h
        | some gr =>
          simp only [hgr] at h
          cases hG : calculate_gini y start end_ with
          | none => simp [hG] at h
          | some G =>
            simp only [hG, Option.some.injEq] at h
            by_cases hL : (leftRows X start end_ nf f th).length = 0
            · left
              rw [hL] at hgl
              have := calculate_gini_empty ly
              simp only [Nat.cast_zero] at hgl
              rw [this, Option.some.injEq] at hgl
              rw [← h, ← hgl, Dbl.mul_nan, Dbl.nan_add, Dbl.sub_nan]
            · by_cases hR : (rightRows X start end_ nf f th).length = 0
              · left
                rw [hR] at hgr
                have := calculate_gini_empty ry
                simp only [Nat.cast_zero] at hgr
                rw [this, Option.some.injEq] at hgr
                rw [← h, ← hgr, Dbl.mul_nan, Dbl.add_nan, Dbl.sub_nan]
              · right
                have hL1 : 1 ≤ (leftRows X start end_ nf f th).length := by omega
                have hR1 : 1 ≤ (rightRows X start end_ nf f th).length := by omega
                have hse : start ≤ end_ + 1 := by
                  by_contra hlt
                  have : (rangeIdx start end_) = [] := by
                    unfold rangeIdx
                    have : (end_ + 1 - start).toNat = 0 := by omega
                    rw [this]; rfl
                  simp [leftRows, this] at hL1
                have hsum := length_leftRows_add_rightRows hse hall
                unfold rangeSize at hsum
                have hn : end_ - start + 1 ≠ 0 := by omega
                obtain ⟨q1, rfl, h10, h11⟩ := calculate_gini_some_bounds hgl (by omega)
                obtain ⟨q2, rfl, h20, h21⟩ := calculate_gini_some_bounds hgr (by omega)
                obtain ⟨Q, rfl, hQ0, hQ1⟩ := calculate_gini_some_bounds hG (by omega)
                rw [Dbl.div_ofInt _ _ hn, Dbl.div_ofInt _ _ hn] at h
                simp only [Dbl.mul, Dbl.add, Dbl.sub, Dbl.neg] at h
                refine ⟨_, h.symm, ?_, hL1, hR1⟩
                have hnq : (0 : ℚ) < ((end_ - start + 1 : Int) : ℚ) := by
                  exact_mod_cast (by omega : (0 : Int) < end_ - start + 1)
                have hsq : (((leftRows X start end_ nf f th).length : Int) : ℚ)
                    + (((rightRows X start end_ nf f th).length : Int) : ℚ)
                    = ((end_ - start + 1 : Int) : ℚ) := by exact_mod_cast hsum
                set pl := (((leftRows X start end_ nf f th).length : Int) : ℚ)
                  / ((end_ - start + 1 : Int) : ℚ) with hpl
                set pr := (((rightRows X start end_ nf f th).length : Int) : ℚ)
                  / ((end_ - start + 1 : Int) : ℚ) with hpr
                have hpl0 : 0 ≤ pl := by
                  rw [hpl]; apply div_nonneg
                  · exact_mod_cast Int.natCast_nonneg _
                  · exact le_of_lt hnq
                have hpr0 : 0 ≤ pr := by
                  rw [hpr]; apply div_nonneg
                  · exact_mod_cast Int.natCast_nonneg _
                  · exact le_of_lt hnq
                have hsum1 : pl + pr = 1 := by
                  rw [hpl, hpr, ← add_div, hsq, div_self (ne_of_gt hnq)]
                nlinarith [mul_le_mul_of_nonneg_left h11 hpl0,
                  mul_le_mul_of_nonneg_left h21 hpr0]

/-! ## Accepted splits -/

theorem Dbl.beq_self {a : Dbl} (h : a ≠ Dbl.nan) : Dbl.beq a a = true := by
  cases a <;> simp [Dbl.beq] at h ⊢

/-- A decision node returned by `build_tree` for a range starting at row 0: its column and
threshold are those of a candidate of the range, at least one row goes to each side, and the
children are built from the two sides one level lower. -/
theorem build_tree_decision_inv {X y : List Int} {end_ : Int} {depth : Nat} {nf f : Int}
    {th : Dbl} {l r : Node}
    (h : build_tree X y 0 end_ depth nf = some (Node.decision f th l r)) :
    ∃ d i0 v0, depth = d + 1 ∧ IsCandidate 0 end_ nf f i0 ∧
      rd X (i0 * nf + f) = some v0 ∧ th = Dbl.ofInt v0 ∧
      1 ≤ (leftRows X 0 end_ nf f th).length ∧ 1 ≤ (rightRows X 0 end_ nf f th).length ∧
      ((leftRows X 0 end_ nf f th).length : Int) + (rightRows X 0 end_ nf f th).length
        = end_ + 1 ∧
      build_tree ((leftRows X 0 end_ nf f th).flatMap (rowAt X nf))
        ((leftRows X 0 end_ nf f th).filterMap (rd y)) 0
        ((leftRows X 0 end_ nf f th).length - 1) d nf = some l ∧
      build_tree ((rightRows X 0 end_ nf f th).flatMap (rowAt X nf))
        ((rightRows X 0 end_ nf f th).filterMap (rd y)) 0
        ((rightRows X 0 end_ nf f th).length - 1) d nf = some r := by
  obtain ⟨c, hc, (⟨ht, -⟩ |
      ⟨d, best, lc, p, l', r', hd, hc1, -, hbest, -, hlc, hp, hl, hr, ht⟩)⟩ := build_tree_inv h
  · cases ht
  · obtain ⟨rfl, rfl, rfl, rfl⟩ := Node.decision.inj ht
    have hse : (0 : Int) ≤ end_ := countLabels_nonempty hc hc1
    obtain ⟨-, hB⟩ := best_split_spec hbest
    rcases hB with hs | ⟨f0, i0, v0, hcand, hv, hg, hf, hth, hpos, -⟩
    · rw [hs] at hlc
      rw [leftCount_sentinel_none X end_ nf _ hse] at hlc
      cases hlc
    · subst hf
      unfold candidateGain at hg
      rw [hv] at hg
      simp only at hg
      rw [← hth] at hg
      have hreads := partLoop_reads hp
      have hsum := @length_leftRows_add_rightRows X 0 end_ nf
        best.best_feature_index best.best_threshold
        (by omega : (0 : Int) ≤ end_ + 1) (fun i hi => (hreads i hi).1)
      unfold rangeSize at hsum
      have hpe := partLoop_spec hp
      have hlce := leftCount_spec hlc
      subst hpe
      subst hlce
      rcases information_gain_cases hg with hnan | ⟨q, -, -, hL, hR⟩
      · exact absurd hnan (Dbl.ne_nan_of_gt hpos)
      · refine ⟨d, i0, v0, hd, hcand, hv, hth, hL, hR, by omega, hl, ?_⟩
        have e : end_ - 0 + 1
            - ((leftRows X 0 end_ nf best.best_feature_index best.best_threshold).length : Int)
              - 1
            = ((rightRows X 0 end_ nf best.best_feature_index
                best.best_threshold).length : Int) - 1 := by omega
        rw [← e]
        exact hr

/-! ## Size of the built tree -/

theorem Node.nodeCount_eq (t : Node) : t.nodeCount + 1 = 2 * t.leafCount := by
  induction t with
  | leaf v => rfl
  | decision f th l r ihl ihr => simp only [Node.nodeCount, Node.leafCount]; omega

/-- A tree built for the rows `0..end_` has at most `end_ + 1` leaves. -/
theorem build_tree_leafCount_le (d : Nat) :
    ∀ (X y : List Int) (end_ : Int) (nf : Int) (t : Node),
      build_tree X y 0 end_ d nf = some t → 0 ≤ end_ → (t.leafCount : Int) ≤ end_ + 1 := by
  induction d with
  | zero =>
    intro X y e nf t h he
    obtain ⟨c, -, (⟨rfl, -⟩ | ⟨d, _, _, _, _, _, hd, -⟩)⟩ := build_tree_inv h
    · simp only [Node.leafCount]; omega
    · omega
  | succ d ih =>
    intro X y e nf t h he
    cases t with
    | leaf v => simp only [Node.leafCount]; omega
    | decision f th l r =>
      obtain ⟨d', i0, v0, hd, -, -, -, hL, hR, hsum, hl, hr⟩ := build_tree_decision_inv h
      obtain rfl : d' = d := by omega
      have h1 := ih _ _ _ _ _ hl (by omega)
      have h2 := ih _ _ _ _ _ hr (by omega)
      simp only [Node.leafCount]
      push_cast
      omega

/-! ## Ranges on which every candidate has an empty side -/

/-- C12 fails on the code: on three rows with the same feature value and mixed labels every
candidate gain is NaN, and `best_split` returns the gain -1, which is the gain of no candidate,
with the column -1 and the threshold 0, which are no candidate. -/
theorem best_split_not_a_candidate :
    best_split [7, 7, 7] [0, 1, 1] 0 2 1 = some ⟨-1, Dbl.fin 0, Dbl.fin (-1)⟩ ∧
    ∀ i ∈ rangeIdx 0 2, candidateGain [7, 7, 7] [0, 1, 1] 0 2 1 0 i = some Dbl.nan := by
  decide!

/-- C15 fails on the code: during `fit` on the data of `main`, `best_split` examines the
candidate of column 0 and row 9 (threshold 51); no row goes right, `right_y` is empty and
`calculate_gini` is entered with the zero-length range `0 .. -1`, where it returns NaN. -/
theorem calculate_gini_entered_with_empty_range :
    fit new mainX mainY 10 3 3 ≠ none ∧
    rd mainX (9 * 3 + 0) = some 51 ∧
    forLoop 0 9 (sideCountStep mainX 3 0 (Dbl.ofInt 51)) (0, 0) = some (10, 0) ∧
    forLoop 0 9 (sideLabelStep mainX mainY 3 0 (Dbl.ofInt 51)) ([], []) = some (mainY, []) ∧
    rightRows mainX 0 9 3 0 (Dbl.ofInt 51) = [] ∧
    calculate_gini [] 0 (0 - 1) = some Dbl.nan := by
  decide!

/-- C16 fails on the code: on two rows with identical feature values and different labels, with
depth 2, no candidate has a gain greater than 0 (every gain is NaN), yet `build_tree` does not
return a leaf: the best gain is -1, not 0, and the split on column -1 reads `X[-1]`. -/
theorem build_tree_identical_rows_not_leaf :
    (∀ f ∈ rangeIdx 0 2, ∀ i ∈ rangeIdx 0 1,
      candidateGain [36, 0, 1, 36, 0, 1] [1, 0] 0 1 3 f i = some Dbl.nan) ∧
    best_split [36, 0, 1, 36, 0, 1] [1, 0] 0 1 3 = some ⟨-1, Dbl.fin 0, Dbl.fin (-1)⟩ ∧
    build_tree [36, 0, 1, 36, 0, 1] [1, 0] 0 1 2 3 = none ∧
    fit new [36, 0, 1, 36, 0, 1] [1, 0] 2 3 2 = none := by
  decide!

/-- C17 fails on the code: when every candidate gain is NaN, `build_tree` splits on the initial
threshold 0.0 of `best_split`, which is the value of no row: through `fit` the split reads
`X[-1]`, and on a range starting at row 1, where that read is inside the array, the returned
decision node has threshold 0 while the values it tests are -3 and 5. -/
theorem build_tree_initial_threshold :
    (best_split [5, 5] [0, 1] 0 1 1).map (fun s => s.best_threshold) = some (Dbl.fin 0) ∧
    fit new [5, 5] [0, 1] 2 1 1 = none ∧
    build_tree [-3, 5, 5] [0, 0, 1] 1 2 1 1
      = some (Node.decision (-1) (Dbl.fin 0) (Node.leaf (Dbl.fin 0)) (Node.leaf (Dbl.fin 1))) ∧
    ∀ i ∈ rangeIdx 1 2, rd [-3, 5, 5] (i * 1 + -1) ≠ some 0 := by
  decide!

/-- C19 fails on the code: when every candidate gain is NaN, `build_tree` splits on the initial
column -1 of `best_split`: through `fit` the split reads `X[-1]`, and on a range starting at
row 1, where that read is inside the array, the returned decision node has `feature_index = -1`,
on which `predict_single` reads `sample[-1]` for every sample. -/
theorem build_tree_initial_feature_index :
    (best_split [5, 5] [0, 1] 0 1 1).map (fun s => s.best_feature_index) = some (-1) ∧
    forLoop 0 1 (leftCountStep [5, 5] 1 (-1) (Dbl.fin 0)) 0 = none ∧
    build_tree [-3, 5, 5] [0, 0, 1] 1 2 1 1
      = some (Node.decision (-1) (Dbl.fin 0) (Node.leaf (Dbl.fin 0)) (Node.leaf (Dbl.fin 1))) ∧
    ∀ (sample : List Int) (l r : Node) (th : Dbl),
      predict_single (Node.decision (-1) th l r) sample 1 = none := by
  refine ⟨by decide!, by decide!, by decide!, ?_⟩
  intro sample l r th
  simp [predict_single, rd]

/-! ## Loops on the platform -/

theorem loopT_fold_spec_aux {σ : Type} (body : σ → Int → σ) (F : List Int → σ) (start : Int)
    (hstep : ∀ (m : Nat), body (F (idxFrom start m)) (start + (m : Int))
      = F (idxFrom start (m + 1))) :
    ∀ (n m : Nat), loopT body n (start + (m : Int)) (F (idxFrom start m))
      = F (idxFrom start (m + n)) := by
  intro n
  induction n with
  | zero => intro m; rfl
  | succ n ih =>
    intro m
    have e : start + (m : Int) + 1 = start + ((m + 1 : Nat) : Int) := by push_cast; ring
    rw [loopT, hstep m, e, ih (m + 1)]
    congr 2
    omega

/-- A loop that cannot fail and whose state after the indices `idx` is `F idx` ends in the state
`F` of all its indices. -/
theorem loopT_fold_spec {σ : Type} (body : σ → Int → σ) (F : List Int → σ) (start : Int)
    (n : Nat)
    (hstep : ∀ (m : Nat), body (F (idxFrom start m)) (start + (m : Int))
      = F (idxFrom start (m + 1))) :
    loopT body n start (F []) = F (idxFrom start n) := by
  have := loopT_fold_spec_aux body F start hstep n 0
  simpa [idxFrom] using this

/-- A loop whose iterations all return, returns. -/
theorem loopFrom_some {σ : Type} (body : σ → Int → Option σ) (n : Nat) :
    ∀ (i : Int) (s : σ),
      (∀ (u : σ) (k : Int), i ≤ k → k < i + n → ∃ u', body u k = some u') →
      ∃ s', loopFrom body n i s = some s' := by
  induction n with
  | zero => intro i s _; exact ⟨s, rfl⟩
  | succ n ih =>
    intro i s h
    obtain ⟨u, hu⟩ := h s i le_rfl (by push_cast; omega)
    obtain ⟨s', hs'⟩ := ih (i + 1) u (fun v k h1 h2 => h v k (by omega) (by push_cast; omega))
    exact ⟨s', by simp only [loopFrom, hu, hs']⟩

theorem length_rangeIdx (start end_ : Int) :
    (rangeIdx start end_).length = (end_ + 1 - start).toNat := by
  unfold rangeIdx
  rw [length_idxFrom]

/-! ## The partition on the platform -/

theorem Platform.length_sides (P : Platform) (X : List Int)
    (start end_ nf f : Int) (th : Dbl) :
    (P.leftRows X start end_ nf f th).length + (P.rightRows X start end_ nf f th).length
      = (end_ + 1 - start).toNat := by
  rw [← length_rangeIdx]
  exact (List.length_eq_length_filter_add _).symm

/-- The first loop of `calculate_information_gain` on the platform counts the rows sent left
and the rows sent right. -/
theorem Platform.sideCount_eq (P : Platform) (X : List Int) (start end_ nf f : Int) (th : Dbl) :
    forT start end_ (P.sideCountStep X nf f th) (0, 0)
      = (((P.leftRows X start end_ nf f th).length : Int),
         ((P.rightRows X start end_ nf f th).length : Int)) := by
  have := loopT_fold_spec (P.sideCountStep X nf f th)
    (fun idx =>
      ((((idx.filter (fun i => P.goesLeft X nf f th i)).length : Int)),
       (((idx.filter (fun i => !P.goesLeft X nf f th i)).length : Int))))
    start (end_ + 1 - start).toNat ?_
  · simpa [forT, Platform.leftRows, Platform.rightRows, rangeIdx] using this
  · intro m
    show P.sideCountStep X nf f th _ _ = ((((idxFrom start (m + 1)).filter _).length : Int),
      (((idxFrom start (m + 1)).filter _).length : Int))
    rw [idxFrom_succ_last]
    simp only [List.filter_append, List.length_append, Platform.sideCountStep]
    cases hg : P.goesLeft X nf f th (start + (m : Int)) <;> simp [hg]

/-- The loop of `build_tree` that counts `left_count` on the platform. -/
theorem Platform.leftCount_eq (P : Platform) (X : List Int) (start end_ nf f : Int) (th : Dbl) :
    forT start end_ (P.leftCountStep X nf f th) 0
      = ((P.leftRows X start end_ nf f th).length : Int) := by
  have := loopT_fold_spec (P.leftCountStep X nf f th)
    (fun idx => ((idx.filter (fun i => P.goesLeft X nf f th i)).length : Int))
    start (end_ + 1 - start).toNat ?_
  · simpa [forT, Platform.leftRows, rangeIdx] using this
  · intro m
    show P.leftCountStep X nf f th _ _ = (((idxFrom start (m + 1)).filter _).length : Int)
    rw [idxFrom_succ_last]
    simp only [List.filter_append, List.length_append, Platform.leftCountStep]
    cases hg : P.goesLeft X nf f th (start + (m : Int)) <;> simp [hg]

theorem Platform.copyRow_eq (P : Platform) (X : List Int) (nf i : Int) (dst : List Int) :
    P.copyRow X nf i dst = dst ++ P.rowAt X nf i := by
  have := loopT_fold_spec (fun d j => d ++ [P.rd X (i * nf + j)])
    (fun js => dst ++ js.map (fun j => P.rd X (i * nf + j))) 0 (nf - 1 + 1 - 0).toNat ?_
  · simpa [Platform.copyRow, forT, Platform.rowAt, rangeIdx] using this
  · intro m
    show dst ++ _ ++ [_] = dst ++ (idxFrom 0 (m + 1)).map _
    rw [idxFrom_succ_last]
    simp

/-- The second loop of `calculate_information_gain` on the platform, on a range whose rows all
have a label. -/
theorem Platform.sideLabel_eq (P : Platform) (X y : List Int) (start end_ nf f : Int) (th : Dbl)
    (hy : ∀ i, start ≤ i → i ≤ end_ → (DecisionTree.rd y i).isSome = true) :
    forLoop start end_ (P.sideLabelStep X y nf f th) ([], [])
      = some ((P.leftRows X start end_ nf f th).filterMap (DecisionTree.rd y),
              (P.rightRows X start end_ nf f th).filterMap (DecisionTree.rd y)) := by
  rw [forLoop_eq]
  obtain ⟨s', hs'⟩ := loopFrom_some (P.sideLabelStep X y nf f th) (end_ + 1 - start).toNat start
    ([], []) (by
      intro u k h1 h2
      obtain ⟨l, hl⟩ := Option.isSome_iff_exists.mp (hy k h1 (by omega))
      cases hg : P.goesLeft X nf f th k <;> simp [Platform.sideLabelStep, hl, hg])
  rw [hs']
  have := loopFrom_fold_spec (P.sideLabelStep X y nf f th)
    (fun idx =>
      ((idx.filter (fun i => P.goesLeft X nf f th i)).filterMap (DecisionTree.rd y),
       (idx.filter (fun i => !P.goesLeft X nf f th i)).filterMap (DecisionTree.rd y)))
    start _ s' ?_ (by simpa using hs')
  · rw [this]
    rfl
  · intro m u' hu
    show u' = (((idxFrom start (m + 1)).filter _).filterMap (DecisionTree.rd y),
      ((idxFrom start (m + 1)).filter _).filterMap (DecisionTree.rd y))
    rw [idxFrom_succ_last]
    simp only [List.filter_append, List.filterMap_append]
    unfold Platform.sideLabelStep at hu
    cases hl : DecisionTree.rd y (start + (m : Int)) with
    | none => simp [hl] at hu
    | some l =>
      simp only [hl] at hu
      cases hg : P.goesLeft X nf f th (start + (m : Int)) <;> simp [hg] at hu <;>
        simp [hg, hl, ← hu]

/-- The partition loop of `build_tree` on the platform, on a range whose rows all have a
label: the rows sent left, whole and in order, with their labels, and the rows sent right. -/
theorem Platform.partLoop_eq (P : Platform) (X y : List Int) (start end_ nf f : Int) (th : Dbl)
    (hy : ∀ i, start ≤ i → i ≤ end_ → (DecisionTree.rd y i).isSome = true) :
    forLoop start end_ (P.partStep X y nf f th) ⟨[], [], [], []⟩
      = some ⟨(P.leftRows X start end_ nf f th).flatMap (P.rowAt X nf),
              (P.leftRows X start end_ nf f th).filterMap (DecisionTree.rd y),
              (P.rightRows X start end_ nf f th).flatMap (P.rowAt X nf),
              (P.rightRows X start end_ nf f th).filterMap (DecisionTree.rd y)⟩ := by
  rw [forLoop_eq]
  obtain ⟨s', hs'⟩ := loopFrom_some (P.partStep X y nf f th) (end_ + 1 - start).toNat start
    ⟨[], [], [], []⟩ (by
      intro u k h1 h2
      obtain ⟨l, hl⟩ := Option.isSome_iff_exists.mp (hy k h1 (by omega))
      cases hg : P.goesLeft X nf f th k <;> simp [Platform.partStep, hl, hg])
  rw [hs']
  have := loopFrom_fold_spec (P.partStep X y nf f th)
    (fun idx =>
      (⟨(idx.filter (fun i => P.goesLeft X nf f th i)).flatMap (P.rowAt X nf),
        (idx.filter (fun i => P.goesLeft X nf f th i)).filterMap (DecisionTree.rd y),
        (idx.filter (fun i => !P.goesLeft X nf f th i)).flatMap (P.rowAt X nf),
        (idx.filter (fun i => !P.goesLeft X nf f th i)).filterMap (DecisionTree.rd y)⟩ : Parts))
    start _ s' ?_ (by simpa using hs')
  · rw [this]
    rfl
  · intro m u' hu
    show u' = (⟨((idxFrom start (m + 1)).filter _).flatMap (P.rowAt X nf),
        ((idxFrom start (m + 1)).filter _).filterMap (DecisionTree.rd y),
        ((idxFrom start (m + 1)).filter _).flatMap (P.rowAt X nf),
        ((idxFrom start (m + 1)).filter _).filterMap (DecisionTree.rd y)⟩ : Parts)
    rw [idxFrom_succ_last]
    simp only [List.filter_append, List.flatMap_append, List.filterMap_append]
    unfold Platform.partStep at hu
    cases hl : DecisionTree.rd y (start + (m : Int)) with
    | none => simp [hl] at hu
    | some l =>
      simp only [hl, Platform.copyRow_eq] at hu
      cases hg : P.goesLeft X nf f th (start + (m : Int)) <;> simp [hg] at hu <;>
        simp [hg, hl, ← hu]

/-! ## Labels of the working sets -/

theorem rd_mem {a : List Int} {k v : Int} (h : rd a k = some v) : v ∈ a := by
  unfold rd at h
  by_cases hk : 0 ≤ k
  · rw [if_pos hk] at h
    exact List.getElem?_mem h
  · rw [if_neg hk] at h
    cases h

theorem LabelsOk.isSome {y : List Int} {start end_ : Int} (h : LabelsOk y start end_) :
    ∀ i, start ≤ i → i ≤ end_ → (rd y i).isSome = true := by
  intro i h1 h2
  rcases h i h1 h2 with h0 | h0 <;> simp [h0]

/-- The labels copied from rows of a range with labels over `{0,1}` are over `{0,1}`. -/
theorem labels_filterMap_ok {y : List Int} {start end_ : Int} (h : LabelsOk y start end_)
    (L : List Int) (hL : ∀ i ∈ L, i ∈ rangeIdx start end_) :
    ∀ l ∈ L.filterMap (rd y), l = 0 ∨ l = 1 := by
  intro l hl
  obtain ⟨i, hi, hil⟩ := List.mem_filterMap.mp hl
  have hr := mem_rangeIdx.mp (hL i hi)
  rcases h i hr.1 hr.2 with h0 | h0 <;> rw [h0] at hil <;> cases hil
  · exact Or.inl rfl
  · exact Or.inr rfl

theorem length_filterMap_rd {y : List Int} (L : List Int)
    (h : ∀ i ∈ L, (rd y i).isSome = true) : (L.filterMap (rd y)).length = L.length := by
  induction L with
  | nil => rfl
  | cons i L ih =>
    obtain ⟨v, hv⟩ := Option.isSome_iff_exists.mp (h i (List.mem_cons_self i L))
    rw [List.filterMap_cons, hv]
    simp only [List.length_cons]
    rw [ih (fun j hj => h j (List.mem_cons_of_mem i hj))]

/-- A list of labels over `{0,1}` read from its first entry up to any entry. -/
theorem labelsOk_of_list {ys : List Int} (h : ∀ l ∈ ys, l = 0 ∨ l = 1) (e : Int)
    (he : e < ys.length) : LabelsOk ys 0 e := by
  intro i h1 h2
  obtain ⟨v, hv⟩ := @rd_of_lt ys i h1 (by omega)
  rw [hv]
  rcases h v (rd_mem hv) with rfl | rfl
  · exact Or.inl rfl
  · exact Or.inr rfl

theorem countLabels_some_of_ok {y : List Int} {start end_ : Int} (h : LabelsOk y start end_) :
    ∃ c, countLabels y start end_ = some c := by
  obtain ⟨a, b, hl, -⟩ := countLoop_spec y (end_ + 1 - start).toNat start (0, 0)
    (fun k h1 h2 => h k h1 (by omega))
  exact ⟨_, hl⟩

/-- The labels that the partition gives to the left working set, read as the range
`0 .. left_count - 1`. -/
theorem Platform.labelsOk_left (P : Platform) {X y : List Int} {start end_ nf f : Int}
    {th : Dbl} (h : LabelsOk y start end_) :
    LabelsOk ((P.leftRows X start end_ nf f th).filterMap (DecisionTree.rd y)) 0
      (((P.leftRows X start end_ nf f th).length : Int) - 1) := by
  have hsub : ∀ i ∈ P.leftRows X start end_ nf f th, i ∈ rangeIdx start end_ :=
    fun i hi => (List.mem_filter.mp hi).1
  apply labelsOk_of_list (labels_filterMap_ok h _ hsub)
  rw [length_filterMap_rd _ (fun i hi => by
    have := mem_rangeIdx.mp (hsub i hi)
    exact h.isSome i this.1 this.2)]
  omega

/-- The labels that the partition gives to the right working set, read as the range
`0 .. e` for any `e` below the number of rows sent right. -/
theorem Platform.labelsOk_right (P : Platform) {X y : List Int} {start end_ nf f : Int}
    {th : Dbl} (h : LabelsOk y start end_) (e : Int)
    (he : e < ((P.rightRows X start end_ nf f th).length : Int)) :
    LabelsOk ((P.rightRows X start end_ nf f th).filterMap (DecisionTree.rd y)) 0 e := by
  have hsub : ∀ i ∈ P.rightRows X start end_ nf f th, i ∈ rangeIdx start end_ :=
    fun i hi => (List.mem_filter.mp hi).1
  apply labelsOk_of_list (labels_filterMap_ok h _ hsub)
  rw [length_filterMap_rd _ (fun i hi => by
    have := mem_rangeIdx.mp (hsub i hi)
    exact h.isSome i this.1 this.2)]
  exact he

/-! ## Every call returns on labels over `{0,1}` -/

theorem Platform.calculate_gini_some (P : Platform) {y : List Int} {start end_ : Int}
    (h : LabelsOk y start end_) : ∃ g, P.calculate_gini y start end_ = some g := by
  obtain ⟨c, hc⟩ := countLabels_some_of_ok h
  unfold Platform.calculate_gini
  rw [hc]
  exact ⟨_, rfl⟩

theorem Platform.calculate_information_gain_some (P : Platform) (X : List Int) {y : List Int}
    {start end_ : Int} (f : Int) (th : Dbl) (nf : Int) (h : LabelsOk y start end_) :
    ∃ g, P.calculate_information_gain X y start end_ f th nf = some g := by
  obtain ⟨gl, hgl⟩ := P.calculate_gini_some (@Platform.labelsOk_left P X y start end_ nf f th h)
  obtain ⟨gr, hgr⟩ := P.calculate_gini_some (@Platform.labelsOk_right P X y start end_ nf f th
    h (((P.rightRows X start end_ nf f th).length : Int) - 1) (by omega))
  obtain ⟨G, hG⟩ := P.calculate_gini_some h
  unfold Platform.calculate_information_gain
  rw [Platform.sideCount_eq, Platform.sideLabel_eq P X y start end_ nf f th h.isSome]
  simp only [hgl, hgr, hG]
  exact ⟨_, rfl⟩

theorem Platform.best_split_some (P : Platform) (X : List Int) {y : List Int}
    {start end_ : Int} (nf : Int) (h : LabelsOk y start end_) :
    ∃ best, P.best_split X y start end_ nf = some best := by
  unfold Platform.best_split
  rw [forLoop_eq]
  apply loopFrom_some
  intro u f _ _
  rw [forLoop_eq]
  apply loopFrom_some
  intro w k _ _
  obtain ⟨g, hg⟩ := P.calculate_information_gain_some X f
    (Dbl.ofInt (P.rd X (k * nf + f))) nf h
  unfold Platform.splitStep
  simp only [hg]
  by_cases hgt : Dbl.gt g w.best_gain = true
  · exact ⟨_, by rw [if_pos hgt]⟩
  · exact ⟨_, by rw [if_neg hgt]⟩

/-- On labels over `{0,1}` `build_tree` returns a tree on every platform; its height is at most
`depth` and its leaves hold 0 or 1. -/
theorem Platform.build_tree_returns (P : Platform) (d : Nat) :
    ∀ (X y : List Int) (start end_ nf : Int), LabelsOk y start end_ →
      ∃ t, P.build_tree X y start end_ d nf = some t ∧ t.height ≤ d ∧
        ∀ v ∈ t.leafValues, v = Dbl.ofInt 0 ∨ v = Dbl.ofInt 1 := by
  induction d with
  | zero =>
    intro X y s e nf h
    obtain ⟨c, hc⟩ := countLabels_some_of_ok h
    refine ⟨Node.leaf (leafValue c), by unfold Platform.build_tree; simp only [hc], le_rfl, ?_⟩
    intro v hv
    simp only [Node.leafValues, List.mem_singleton] at hv
    rw [hv]; exact leafValue_cases c
  | succ d ih =>
    intro X y s e nf h
    obtain ⟨c, hc⟩ := countLabels_some_of_ok h
    have hleaf : ∀ v ∈ (Node.leaf (leafValue c)).leafValues,
        v = Dbl.ofInt 0 ∨ v = Dbl.ofInt 1 := by
      intro v hv
      simp only [Node.leafValues, List.mem_singleton] at hv
      rw [hv]; exact leafValue_cases c
    by_cases hp : c.1 = 0 ∨ c.2 = 0
    · refine ⟨Node.leaf (leafValue c), ?_, Nat.zero_le _, hleaf⟩
      unfold Platform.build_tree
      simp only [hc]
      rw [if_pos hp]
    · obtain ⟨best, hb⟩ := P.best_split_some X nf h
      by_cases hg : Dbl.beq best.best_gain (Dbl.fin 0) = true
      · refine ⟨Node.leaf (leafValue c), ?_, Nat.zero_le _, hleaf⟩
        unfold Platform.build_tree
        simp only [hc, hb]
        rw [if_neg hp, if_pos hg]
      · have hlen := P.length_sides X s e nf best.best_feature_index
          best.best_threshold
        obtain ⟨l, hl, hlh, hlv⟩ := ih
          ((P.leftRows X s e nf best.best_feature_index best.best_threshold).flatMap
            (P.rowAt X nf))
          ((P.leftRows X s e nf best.best_feature_index best.best_threshold).filterMap
            (DecisionTree.rd y))
          0 (((P.leftRows X s e nf best.best_feature_index best.best_threshold).length : Int)
            - 1) nf (P.labelsOk_left h)
        obtain ⟨r, hr, hrh, hrv⟩ := ih
          ((P.rightRows X s e nf best.best_feature_index best.best_threshold).flatMap
            (P.rowAt X nf))
          ((P.rightRows X s e nf best.best_feature_index best.best_threshold).filterMap
            (DecisionTree.rd y))
          0 (e - s + 1
            - ((P.leftRows X s e nf best.best_feature_index best.best_threshold).length : Int)
            - 1) nf (P.labelsOk_right h _ (by omega))
        refine ⟨Node.decision best.best_feature_index best.best_threshold l r, ?_, ?_, ?_⟩
        · unfold Platform.build_tree
          simp only [hc, hb]
          rw [if_neg hp, if_neg hg]
          simp only [Platform.leftCount_eq, Platform.partLoop_eq P X y s e nf _ _ h.isSome,
            hl, hr]
        · simp only [Node.height]
          omega
        · intro v hv
          simp only [Node.leafValues, List.mem_append] at hv
          rcases hv with hv | hv
          · exact hlv v hv
          · exact hrv v hv

/-! ## Rounded impurity and gain -/

theorem Platform.Accurate.bounds {P : Platform} (hP : P.Accurate) (x : ℚ) (h1 : -4 ≤ x)
    (h2 : x ≤ 4) : x - 1 / 1024 ≤ P.rnd x ∧ P.rnd x ≤ x + 1 / 1024 := by
  have h := hP x (abs_le.mpr ⟨h1, h2⟩)
  rw [abs_le] at h
  constructor <;> linarith [h.1, h.2]

/-- The square of a rounded proportion is within 3/1024 of the square of the proportion. -/
theorem sq_rounded_close (x p : ℚ) (h0 : 0 ≤ x) (h1 : x ≤ 1) (hl : x - 1 / 1024 ≤ p)
    (hu : p ≤ x + 1 / 1024) : x * x - 3 / 1024 ≤ p * p ∧ p * p ≤ x * x + 3 / 1024 := by
  constructor
  · nlinarith [sq_nonneg (p - x), mul_nonneg h0 (by linarith : (0 : ℚ) ≤ p - x + 1 / 1024)]
  · nlinarith [mul_nonneg (by linarith : (0 : ℚ) ≤ x + 1 / 1024 - p)
      (by linarith : (0 : ℚ) ≤ x + 1 / 1024 + p)]

/-- The impurity computed with rounding from two proportions that add up to 1 lies between
-1/100 and 11/20. -/
theorem gini_rounded_bounds {P : Platform} (hP : P.Accurate) (x0 x1 : ℚ) (h0 : 0 ≤ x0)
    (h1 : 0 ≤ x1) (h : x0 + x1 = 1) :
    -(1 / 100) ≤ P.rnd (1 + -P.rnd (P.rnd (P.rnd x0 * P.rnd x0) + P.rnd (P.rnd x1 * P.rnd x1)))
    ∧ P.rnd (1 + -P.rnd (P.rnd (P.rnd x0 * P.rnd x0) + P.rnd (P.rnd x1 * P.rnd x1)))
      ≤ 11 / 20 := by
  obtain ⟨a1, a2⟩ := hP.bounds x0 (by linarith) (by linarith)
  obtain ⟨b1, b2⟩ := hP.bounds x1 (by linarith) (by linarith)
  obtain ⟨c1, c2⟩ := sq_rounded_close x0 (P.rnd x0) h0 (by linarith) a1 a2
  obtain ⟨d1, d2⟩ := sq_rounded_close x1 (P.rnd x1) h1 (by linarith) b1 b2
  have hT1 : 1 / 2 ≤ x0 * x0 + x1 * x1 := by
    have e : x1 = 1 - x0 := by linarith
    subst e
    nlinarith [sq_nonneg (2 * x0 - 1)]
  have hT2 : x0 * x0 + x1 * x1 ≤ 1 := by
    have e : x1 = 1 - x0 := by linarith
    subst e
    nlinarith [mul_nonneg h0 h1]
  have hx0 : x0 * x0 ≤ 1 := by nlinarith [mul_nonneg h1 h1]
  have hx1 : x1 * x1 ≤ 1 := by nlinarith [mul_nonneg h0 h0]
  have hx0' : 0 ≤ x0 * x0 := mul_nonneg h0 h0
  have hx1' : 0 ≤ x1 * x1 := mul_nonneg h1 h1
  obtain ⟨e1, e2⟩ := hP.bounds (P.rnd x0 * P.rnd x0) (by linarith) (by linarith)
  obtain ⟨f1, f2⟩ := hP.bounds (P.rnd x1 * P.rnd x1) (by linarith) (by linarith)
  obtain ⟨g1, g2⟩ := hP.bounds (P.rnd (P.rnd x0 * P.rnd x0) + P.rnd (P.rnd x1 * P.rnd x1))
    (by linarith) (by linarith)
  obtain ⟨k1, k2⟩ := hP.bounds
    (1 + -P.rnd (P.rnd (P.rnd x0 * P.rnd x0) + P.rnd (P.rnd x1 * P.rnd x1)))
    (by linarith) (by linarith)
  constructor <;> linarith

/-- A product of a rounded proportion and an impurity is at most 11/20 of the proportion, up to
the rounding. -/
theorem mul_rounded_bounds (a p g : ℚ) (ha : 0 ≤ a) (hl : a - 1 / 1024 ≤ p)
    (hu : p ≤ a + 1 / 1024) (hg1 : -(1 / 100) ≤ g) (hg2 : g ≤ 11 / 20) :
    -((a + 1 / 1024) * (11 / 20)) ≤ p * g ∧ p * g ≤ (a + 1 / 1024) * (11 / 20) := by
  have A1 : (0 : ℚ) ≤ a + 1 / 1024 - p := by linarith
  have A2 : (0 : ℚ) ≤ a + 1 / 1024 + p := by linarith
  have B1 : (0 : ℚ) ≤ 11 / 20 - g := by linarith
  have B2 : (0 : ℚ) ≤ 11 / 20 + g := by linarith
  constructor
  · nlinarith [mul_nonneg A1 B1, mul_nonneg A2 B2]
  · nlinarith [mul_nonneg A1 B2, mul_nonneg A2 B1]

/-- The gain computed with rounding from two shares that add up to 1 and three impurities
between -1/100 and 11/20 is greater than -1. -/
theorem gain_rounded_gt {P : Platform} (hP : P.Accurate) (a b gl gr G : ℚ) (ha : 0 ≤ a)
    (hb : 0 ≤ b) (hab : a + b = 1) (hl1 : -(1 / 100) ≤ gl) (hl2 : gl ≤ 11 / 20)
    (hr1 : -(1 / 100) ≤ gr) (hr2 : gr ≤ 11 / 20) (hG1 : -(1 / 100) ≤ G) (hG2 : G ≤ 11 / 20) :
    -1 < P.rnd (G + -P.rnd (P.rnd (P.rnd a * gl) + P.rnd (P.rnd b * gr))) := by
  obtain ⟨a1, a2⟩ := hP.bounds a (by linarith) (by linarith)
  obtain ⟨b1, b2⟩ := hP.bounds b (by linarith) (by linarith)
  obtain ⟨c1, c2⟩ := mul_rounded_bounds a (P.rnd a) gl ha a1 a2 hl1 hl2
  obtain ⟨d1, d2⟩ := mul_rounded_bounds b (P.rnd b) gr hb b1 b2 hr1 hr2
  obtain ⟨e1, e2⟩ := hP.bounds (P.rnd a * gl) (by linarith) (by linarith)
  obtain ⟨f1, f2⟩ := hP.bounds (P.rnd b * gr) (by linarith) (by linarith)
  obtain ⟨g1, g2⟩ := hP.bounds (P.rnd (P.rnd a * gl) + P.rnd (P.rnd b * gr))
    (by linarith) (by linarith)
  obtain ⟨k1, k2⟩ := hP.bounds (G + -P.rnd (P.rnd (P.rnd a * gl) + P.rnd (P.rnd b * gr)))
    (by linarith) (by linarith)
  linarith

theorem Platform.round_div_ofInt (P : Platform) (a b : Int) (hb : b ≠ 0) :
    P.div (Dbl.ofInt a) (Dbl.ofInt b) = Dbl.fin (P.rnd ((a : ℚ) / (b : ℚ))) := by
  rw [Platform.div, Dbl.div_ofInt a b hb]
  rfl

theorem Platform.round_mul_nan (P : Platform) (a : Dbl) : P.mul a Dbl.nan = Dbl.nan := by
  rw [Platform.mul, Dbl.mul_nan]; rfl

theorem Platform.round_add_nan (P : Platform) (a : Dbl) : P.add a Dbl.nan = Dbl.nan := by
  rw [Platform.add, Dbl.add_nan]; rfl

theorem Platform.round_nan_add (P : Platform) (a : Dbl) : P.add Dbl.nan a = Dbl.nan := by
  rw [Platform.add, Dbl.nan_add]; rfl

theorem Platform.round_sub_nan (P : Platform) (a : Dbl) : P.sub a Dbl.nan = Dbl.nan := by
  rw [Platform.sub, Dbl.sub_nan]; rfl

/-- On a range of no row `calculate_gini` divides 0.0 by 0 and returns NaN on every platform. -/
theorem Platform.gini_empty_nan (P : Platform) (l : List Int) :
    P.calculate_gini l 0 (0 - 1) = some Dbl.nan := by
  have hc : countLabels l 0 (0 - 1) = some (0, 0) := rfl
  unfold Platform.calculate_gini
  rw [hc]
  have hd : P.div (Dbl.ofInt 0) (Dbl.ofInt (0 - 1 - 0 + 1)) = Dbl.nan := by
    simp [Platform.div, Dbl.div, Dbl.ofInt, Platform.round]
  simp only [hd, Platform.round_mul_nan, Platform.round_add_nan, Platform.round_sub_nan]

/-- On a range of at least one row with labels over `{0,1}`, the impurity that `calculate_gini`
computes with an accurate rounding is finite and lies between -1/100 and 11/20. -/
theorem Platform.gini_rounded_range {P : Platform} (hP : P.Accurate) {y : List Int}
    {start end_ : Int} (hy : LabelsOk y start end_) (hse : start ≤ end_) :
    ∃ q : ℚ, P.calculate_gini y start end_ = some (Dbl.fin q) ∧ -(1 / 100) ≤ q ∧
      q ≤ 11 / 20 := by
  obtain ⟨a, b, hcl, ha, hb, hab, -, -⟩ := countLabels_spec hse hy
  have hn : end_ - start + 1 ≠ 0 := by omega
  have hnq : (0 : ℚ) < ((end_ - start + 1 : Int) : ℚ) := by
    exact_mod_cast (by omega : (0 : Int) < end_ - start + 1)
  have habq : (a : ℚ) + (b : ℚ) = ((end_ - start + 1 : Int) : ℚ) := by exact_mod_cast hab
  have haq : (0 : ℚ) ≤ a := by exact_mod_cast ha
  have hbq : (0 : ℚ) ≤ b := by exact_mod_cast hb
  have hb := gini_rounded_bounds hP ((a : ℚ) / ((end_ - start + 1 : Int) : ℚ))
    ((b : ℚ) / ((end_ - start + 1 : Int) : ℚ)) (div_nonneg haq (le_of_lt hnq))
    (div_nonneg hbq (le_of_lt hnq)) (by rw [← add_div, habq, div_self (ne_of_gt hnq)])
  refine ⟨_, ?_, hb.1, hb.2⟩
  unfold Platform.calculate_gini
  rw [hcl]
  simp only [Platform.round_div_ofInt P _ _ hn]
  simp only [Platform.mul, Platform.add, Platform.sub, Platform.round, Dbl.mul, Dbl.add,
    Dbl.sub, Dbl.neg, Dbl.ofInt, Int.cast_one]

theorem length_pos_of_ne_nil {L : List Int} (h : L ≠ []) : 1 ≤ L.length := by
  cases L with
  | nil => exact absurd rfl h
  | cons a t => simp

/-- A gain that `calculate_information_gain` computes on labels over `{0,1}` with an accurate
rounding is NaN, when no row goes to one of the sides, or a finite value greater than -1. -/
theorem Platform.gain_nan_or_gt {P : Platform} (hP : P.Accurate) (X : List Int)
    {y : List Int} {start end_ : Int} (f : Int) (th : Dbl) (nf : Int)
    (hy : LabelsOk y start end_) :
    P.calculate_information_gain X y start end_ f th nf = some Dbl.nan ∨
      ∃ q : ℚ, P.calculate_information_gain X y start end_ f th nf = some (Dbl.fin q) ∧
        -1 < q ∧ 1 ≤ (P.leftRows X start end_ nf f th).length ∧
        1 ≤ (P.rightRows X start end_ nf f th).length := by
  obtain ⟨G, hG⟩ := P.calculate_gini_some hy
  have hlen := P.length_sides X start end_ nf f th
  by_cases hL : P.leftRows X start end_ nf f th = []
  · left
    obtain ⟨gr, hgr⟩ := P.calculate_gini_some (@Platform.labelsOk_right P X y start end_ nf f th
      hy (((P.rightRows X start end_ nf f th).length : Int) - 1) (by omega))
    unfold Platform.calculate_information_gain
    rw [Platform.sideCount_eq, Platform.sideLabel_eq P X y start end_ nf f th hy.isSome]
    simp only [hgr, hG]
    rw [hL]
    simp only [List.filterMap_nil, List.length_nil, Nat.cast_zero]
    rw [Platform.gini_empty_nan]
    simp only [Platform.round_mul_nan, Platform.round_nan_add, Platform.round_sub_nan]
  · by_cases hR : P.rightRows X start end_ nf f th = []
    · left
      obtain ⟨gl, hgl⟩ := P.calculate_gini_some (@Platform.labelsOk_left P X y start end_ nf f
        th hy)
      unfold Platform.calculate_information_gain
      rw [Platform.sideCount_eq, Platform.sideLabel_eq P X y start end_ nf f th hy.isSome]
      simp only [hgl, hG]
      rw [hR]
      simp only [List.filterMap_nil, List.length_nil, Nat.cast_zero]
      rw [Platform.gini_empty_nan]
      simp only [Platform.round_mul_nan, Platform.round_add_nan, Platform.round_sub_nan]
    · right
      have hL1 := length_pos_of_ne_nil hL
      have hR1 := length_pos_of_ne_nil hR
      have hn : end_ - start + 1 ≠ 0 := by omega
      have hnq : (0 : ℚ) < ((end_ - start + 1 : Int) : ℚ) := by
        exact_mod_cast (by omega : (0 : Int) < end_ - start + 1)
      have hsum : ((P.leftRows X start end_ nf f th).length : Int)
          + ((P.rightRows X start end_ nf f th).length : Int) = end_ - start + 1 := by omega
      have hsq : (((P.leftRows X start end_ nf f th).length : Int) : ℚ)
          + (((P.rightRows X start end_ nf f th).length : Int) : ℚ)
          = ((end_ - start + 1 : Int) : ℚ) := by exact_mod_cast hsum
      obtain ⟨ql, hgl, hl1, hl2⟩ := Platform.gini_rounded_range hP
        (@Platform.labelsOk_left P X y start end_ nf f th hy) (by omega)
      obtain ⟨qr, hgr, hr1, hr2⟩ := Platform.gini_rounded_range hP
        (@Platform.labelsOk_right P X y start end_ nf f th hy
          (((P.rightRows X start end_ nf f th).length : Int) - 1) (by omega)) (by omega)
      obtain ⟨Q, hGq, hQ1, hQ2⟩ := Platform.gini_rounded_range hP hy (by omega)
      have hgain := gain_rounded_gt hP
        ((((P.leftRows X start end_ nf f th).length : Int) : ℚ)
          / ((end_ - start + 1 : Int) : ℚ))
        ((((P.rightRows X start end_ nf f th).length : Int) : ℚ)
          / ((end_ - start + 1 : Int) : ℚ)) ql qr Q
        (div_nonneg (by exact_mod_cast Int.natCast_nonneg _) (le_of_lt hnq))
        (div_nonneg (by exact_mod_cast Int.natCast_nonneg _) (le_of_lt hnq))
        (by rw [← add_div, hsq, div_self (ne_of_gt hnq)]) hl1 hl2 hr1 hr2 hQ1 hQ2
      refine ⟨_, ?_, hgain, hL1, hR1⟩
      unfold Platform.calculate_information_gain
      rw [Platform.sideCount_eq, Platform.sideLabel_eq P X y start end_ nf f th hy.isSome]
      simp only [hgl, hgr, hGq, Platform.round_div_ofInt P _ _ hn]
      simp only [Platform.mul, Platform.add, Platform.sub, Platform.round, Dbl.mul, Dbl.add,
        Dbl.sub, Dbl.neg]

/-! ## The search of `best_split` on a platform -/

/-- One candidate more: the invariant of `best_split` is kept by the body of its inner loop. -/
theorem Platform.splitStep_keeps {P : Platform} {X y : List Int} {start end_ nf f k : Int}
    {best best' : Split} (hc : IsCandidate start end_ nf f k)
    (hinv : P.SplitInv X y start end_ nf f k best)
    (h : P.splitStep X y start end_ nf f best k = some best') :
    P.SplitInv X y start end_ nf f (k + 1) best' := by
  obtain ⟨hA, hB⟩ := hinv
  unfold Platform.splitStep at h
  cases hg : P.calculate_information_gain X y start end_ f
      (Dbl.ofInt (P.rd X (k * nf + f))) nf with
  | none => simp [hg] at h
  | some g =>
    simp only [hg] at h
    have hcg : P.candidateGain X y start end_ nf f k = some g := hg
    have hbef : ∀ f' i', Before f' i' f (k + 1) → Before f' i' f k ∨ (f' = f ∧ i' = k) := by
      intro f' i' hb
      unfold Before at hb ⊢
      omega
    by_cases hgt : Dbl.gt g best.best_gain = true
    · rw [if_pos hgt] at h
      cases h
      constructor
      · intro f' i' hc' hb'
        rcases hbef f' i' hb' with hold | ⟨rfl, rfl⟩
        · obtain ⟨g', hg', hle⟩ := hA f' i' hc' hold
          exact ⟨g', hg', Dbl.gt_of_gt_of_not_gt hgt hle⟩
        · exact ⟨g, hcg, Dbl.gt_irrefl g⟩
      · right
        refine ⟨f, k, hc, Or.inr ⟨rfl, by omega⟩, hcg, rfl, rfl, ?_, ?_⟩
        · rcases hB with hs | ⟨_, _, _, _, _, _, _, hpos, _⟩
          · rw [hs] at hgt
            exact hgt
          · exact Dbl.gt_trans hgt hpos
        · intro f' i' hc' hb'
          obtain ⟨g', hg', hle⟩ := hA f' i' hc' hb'
          exact ⟨g', hg', Dbl.beq_false_of_gt_of_not_gt hgt hle⟩
    · rw [if_neg hgt] at h
      cases h
      have hgt' : Dbl.gt g best.best_gain = false := by
        cases hx : Dbl.gt g best.best_gain
        · rfl
        · exact absurd hx hgt
      constructor
      · intro f' i' hc' hb'
        rcases hbef f' i' hb' with hold | ⟨rfl, rfl⟩
        · exact hA f' i' hc' hold
        · exact ⟨g, hcg, hgt'⟩
      · rcases hB with hs | ⟨f0, i0, h1, h2, h4, h5, h6, h7, h8⟩
        · exact Or.inl hs
        · right
          refine ⟨f0, i0, h1, ?_, h4, h5, h6, h7, h8⟩
          unfold Before at h2 ⊢
          omega

/-- What `best_split` returns on a platform: no candidate has a greater gain, and the result is
either the initial `(-1, 0.0, -1.0)` or the first candidate, in the order of the two loops, that
has the returned gain; a returned candidate gain is greater than -1. -/
theorem Platform.best_split_first {P : Platform} {X y : List Int} {start end_ nf : Int}
    {best : Split} (h : P.best_split X y start end_ nf = some best) :
    (∀ f i, IsCandidate start end_ nf f i →
      ∃ g, P.candidateGain X y start end_ nf f i = some g ∧
        Dbl.gt g best.best_gain = false) ∧
    (best = ⟨-1, Dbl.fin 0, Dbl.fin (-1)⟩ ∨
      ∃ f0 i0, IsCandidate start end_ nf f0 i0 ∧
        P.candidateGain X y start end_ nf f0 i0 = some best.best_gain ∧
        best.best_feature_index = f0 ∧
        best.best_threshold = Dbl.ofInt (P.rd X (i0 * nf + f0)) ∧
        Dbl.gt best.best_gain (Dbl.fin (-1)) = true ∧
        ∀ f' i', IsCandidate start end_ nf f' i' → Before f' i' f0 i0 →
          ∃ g, P.candidateGain X y start end_ nf f' i' = some g ∧
            Dbl.beq g best.best_gain = false) := by
  unfold Platform.best_split at h
  rw [forLoop_eq] at h
  have hfin := loopFrom_invariant_idx _
    (fun f s => P.SplitInv X y start end_ nf f start s) _ 0 _ best ?_ ?_ h
  · obtain ⟨hA, hB⟩ := hfin
    constructor
    · intro f i hc
      refine hA f i hc (Or.inl ?_)
      unfold IsCandidate at hc
      omega
    · rcases hB with hs | ⟨f0, i0, h1, _, h4, h5, h6, h7, h8⟩
      · exact Or.inl hs
      · exact Or.inr ⟨f0, i0, h1, h4, h5, h6, h7, h8⟩
  · intro u f u' hf0 hf1 hu hbody
    rw [forLoop_eq] at hbody
    have hin := loopFrom_invariant_idx _
      (fun k s => P.SplitInv X y start end_ nf f k s) _ start u u' ?_ hu hbody
    · obtain ⟨hA, hB⟩ := hin
      constructor
      · intro f' i' hc' hb'
        refine hA f' i' hc' ?_
        unfold IsCandidate at hc'
        unfold Before at hb' ⊢
        omega
      · rcases hB with hs | ⟨f0, i0, h1, h2, h4, h5, h6, h7, h8⟩
        · exact Or.inl hs
        · right
          refine ⟨f0, i0, h1, ?_, h4, h5, h6, h7, h8⟩
          unfold IsCandidate at h1
          unfold Before at h2 ⊢
          omega
    · intro w k w' hk0 hk1 hw hstep
      exact Platform.splitStep_keeps ⟨hf0, by omega, hk0, by omega⟩ hw hstep
  · constructor
    · intro f' i' hc' hb'
      unfold IsCandidate at hc'
      unfold Before at hb'
      omega
    · exact Or.inl rfl

/-! ## The binary64 rounding is accurate -/

theorem Dbl.pow2_pos (s : Int) : 0 < Dbl.pow2 s := by
  unfold Dbl.pow2
  split
  · exact_mod_cast pow_pos (by norm_num : 0 < 2) s.toNat
  · apply one_div_pos.mpr
    exact_mod_cast pow_pos (by norm_num : 0 < 2) (-s).toNat

theorem Dbl.pow2_le_of_le (s : Int) (h : s ≤ -50) : Dbl.pow2 s ≤ 1 / 512 := by
  unfold Dbl.pow2
  rw [if_neg (by omega)]
  have h1 : 2 ^ 50 ≤ 2 ^ (-s).toNat := Nat.pow_le_pow_right (by norm_num) (by omega)
  have h2 : (512 : ℚ) ≤ ((2 ^ (-s).toNat : Nat) : ℚ) := by
    have : (512 : Nat) ≤ 2 ^ (-s).toNat := le_trans (by norm_num) h1
    exact_mod_cast this
  exact one_div_le_one_div_of_le (by norm_num) h2

theorem Dbl.roundEven_close (m : ℚ) : |((Dbl.roundEven m : Int) : ℚ) - m| ≤ 1 / 2 := by
  have h1 : ((Rat.floor m : Int) : ℚ) ≤ m := Int.floor_le m
  have h2 : m < ((Rat.floor m : Int) : ℚ) + 1 := Int.lt_floor_add_one m
  unfold Dbl.roundEven
  rw [abs_le]
  simp only
  split_ifs with a b c
  · constructor <;> linarith
  · push_cast; constructor <;> linarith
  · constructor <;> linarith
  · push_cast; constructor <;> linarith

theorem Dbl.halvings_eq (fuel : Nat) : ∀ n, n ≤ fuel → Dbl.halvings fuel n = Nat.log2 n := by
  induction fuel with
  | zero =>
    intro n h
    obtain rfl : n = 0 := by omega
    rw [Nat.log2_zero]
    rfl
  | succ k ih =>
    intro n h
    rw [Dbl.halvings, Nat.log2]
    by_cases h2 : 2 ≤ n
    · rw [if_pos h2, if_pos h2, ih (n / 2) (by omega)]
    · rw [if_neg h2, if_neg h2]

theorem Dbl.ilog2_eq (n : Nat) : Dbl.ilog2 n = Nat.log2 n := Dbl.halvings_eq n n le_rfl

theorem Dbl.exponent_le_two (a : ℚ) (h0 : 0 < a) (h4 : a ≤ 4) : Dbl.exponent a ≤ 2 := by
  have hnum : 0 < a.num := Rat.num_pos.mpr h0
  have hden : (0 : ℚ) < (a.den : ℚ) := by exact_mod_cast a.den_pos
  have hle : a.num ≤ 4 * (a.den : Int) := by
    have h := Rat.num_div_den a
    rw [← h, div_le_iff₀ hden] at h4
    exact_mod_cast h4
  have hp : a.num.toNat ≤ 4 * a.den := by omega
  have hp0 : a.num.toNat ≠ 0 := by omega
  have hq := @Nat.lt_log2_self a.den
  have hlt : a.num.toNat < 2 ^ (a.den.log2 + 3) := by
    have e : 2 ^ (a.den.log2 + 3) = 4 * 2 ^ (a.den.log2 + 1) := by ring
    omega
  have hlog := (Nat.log2_lt hp0).mpr hlt
  unfold Dbl.exponent
  simp only [Dbl.ilog2_eq]
  split <;> omega

/-- The rounding of binary64 moves a value between -4 and 4 by at most 1/1024 (in fact by at
most 2^-51). -/
theorem Platform.binary64_accurate (w : Int) : (Platform.binary64 w).Accurate := by
  intro x hx
  show |Dbl.round64 x - x| ≤ 1 / 1024
  unfold Dbl.round64
  by_cases h0 : x = 0
  · rw [if_pos h0, h0]; norm_num
  · rw [if_neg h0]
    simp only
    rw [abs_le] at hx
    have ha0 : 0 < (if 0 ≤ x then x else -x) := by
      split
      · exact lt_of_le_of_ne ‹0 ≤ x› (Ne.symm h0)
      · linarith
    have ha4 : (if 0 ≤ x then x else -x) ≤ 4 := by
      split <;> linarith
    have he := Dbl.exponent_le_two _ ha0 ha4
    have hs : max (Dbl.exponent (if 0 ≤ x then x else -x) - 52) (-1074) ≤ -50 :=
      max_le (by omega) (by norm_num)
    generalize max (Dbl.exponent (if 0 ≤ x then x else -x) - 52) (-1074) = s at hs
    have hpos := Dbl.pow2_pos s
    have hle := Dbl.pow2_le_of_le s hs
    have hc := Dbl.roundEven_close (x / Dbl.pow2 s)
    have e : ((Dbl.roundEven (x / Dbl.pow2 s) : Int) : ℚ) * Dbl.pow2 s - x
        = (((Dbl.roundEven (x / Dbl.pow2 s) : Int) : ℚ) - x / Dbl.pow2 s) * Dbl.pow2 s := by
      field_simp
    rw [e, abs_mul, abs_of_pos hpos]
    calc |((Dbl.roundEven (x / Dbl.pow2 s) : Int) : ℚ) - x / Dbl.pow2 s| * Dbl.pow2 s
        ≤ 1 / 2 * (1 / 512) := mul_le_mul hc hle (le_of_lt hpos) (by norm_num)
      _ = 1 / 1024 := by norm_num

/-! ## Depth of the tree on every platform -/

/-- C1: for every feature matrix, all labels over `{0,1}`, every `num_samples`, `num_features`
and `max_depth`, on every platform (whatever the rounding of doubles is and whatever a read
outside an array finds), `fit` returns a tree, and every leaf of it is at distance at most
`max_depth` from the root: the height of the tree is at most `max_depth`. -/
theorem fit_returns_height_le_max_depth (P : Platform) (self : DecisionTree) (X y : List Int)
    (num_samples num_features : Int) (max_depth : Nat)
    (hy : LabelsOk y 0 (num_samples - 1)) :
    ∃ root, P.fit self X y num_samples num_features max_depth = some ⟨some root⟩ ∧
      root.height ≤ max_depth ∧ ∀ k ∈ root.leafDepths, k ≤ max_depth := by
  obtain ⟨t, ht, hh, -⟩ := P.build_tree_returns max_depth X y 0 (num_samples - 1) num_features hy
  refine ⟨t, ?_, hh, fun k hk => le_trans (Node.leafDepths_le_height t k hk) hh⟩
  unfold Platform.fit
  rw [ht]

theorem fit_returns_height_le_max_depth_witness :
    ∃ root, (Platform.binary64 1).fit new [5, 5] [0, 1] 2 1 3 = some ⟨some root⟩ ∧
      root.height ≤ 3 ∧ ∀ k ∈ root.leafDepths, k ≤ 3 :=
  fit_returns_height_le_max_depth (Platform.binary64 1) new [5, 5] [0, 1] 2 1 3
    (by intro i h1 h2; interval_cases i <;> decide)

/-! ## The first of the candidates with the greatest gain -/

theorem Dbl.not_gt_of_option {o : Option Dbl} {g0 g : Dbl}
    (h : o.all (fun g => !Dbl.gt g g0) = true) (hg : o = some g) : Dbl.gt g g0 = false := by
  subst hg
  simpa using h

/-- C13: on every platform with an accurate rounding and on labels over `{0,1}`, when a
candidate reaches the maximal gain (its gain, as the platform computes it, is a number and no
candidate has a greater gain) and no candidate examined before it, in the order lowest column
first and then earliest row, has that gain, `best_split` returns this candidate: its column, the
value of its row in that column as threshold, and its gain. -/
theorem best_split_returns_first_maximal (P : Platform) (hP : P.Accurate) (X y : List Int)
    (start end_ num_features f0 i0 : Int) (g0 : Dbl)
    (hy : LabelsOk y start end_)
    (hc : IsCandidate start end_ num_features f0 i0)
    (hg : P.candidateGain X y start end_ num_features f0 i0 = some g0)
    (hnan : g0 ≠ Dbl.nan)
    (hmax : ∀ f i g, IsCandidate start end_ num_features f i →
      P.candidateGain X y start end_ num_features f i = some g → Dbl.gt g g0 = false)
    (hfirst : ∀ f i g, IsCandidate start end_ num_features f i → Before f i f0 i0 →
      P.candidateGain X y start end_ num_features f i = some g → Dbl.beq g g0 = false) :
    P.best_split X y start end_ num_features
      = some ⟨f0, Dbl.ofInt (P.rd X (i0 * num_features + f0)), g0⟩ := by
  obtain ⟨best, h⟩ := P.best_split_some X num_features hy
  rw [h]
  obtain ⟨hA, hB⟩ := Platform.best_split_first h
  have hpos0 : Dbl.gt g0 (Dbl.fin (-1)) = true := by
    have hg' := hg
    unfold Platform.candidateGain at hg'
    rcases Platform.gain_nan_or_gt hP X f0
        (Dbl.ofInt (P.rd X (i0 * num_features + f0))) num_features hy with hn | ⟨q, hq, hq1, -, -⟩
    · rw [hn, Option.some.injEq] at hg'
      exact absurd hg'.symm hnan
    · rw [hq, Option.some.injEq] at hg'
      rw [← hg']
      simpa [Dbl.gt, Dbl.lt] using hq1
  obtain ⟨g, hg1, hle0⟩ := hA f0 i0 hc
  rw [hg, Option.some.injEq] at hg1
  subst hg1
  rcases hB with hs | ⟨fb, ib, hcb, hgb, hfb, hthb, hposb, hfirstb⟩
  · rw [hs] at hle0
    rw [hpos0] at hle0
    cases hle0
  · have hle1 := hmax fb ib _ hcb hgb
    have heq : g0 = best.best_gain :=
      Dbl.eq_of_not_gt_of_not_gt hnan (Dbl.ne_nan_of_gt hposb) hle0 hle1
    have hself : Dbl.beq g0 g0 = true := Dbl.beq_self hnan
    have hpos : fb = f0 ∧ ib = i0 := by
      by_contra hne
      have : Before fb ib f0 i0 ∨ Before f0 i0 fb ib := by
        unfold Before
        omega
      rcases this with hb | hb
      · have := hfirst fb ib _ hcb hb hgb
        rw [← heq, hself] at this
        cases this
      · obtain ⟨g', hg', hbeq⟩ := hfirstb f0 i0 hc hb
        rw [hg, Option.some.injEq] at hg'
        subst hg'
        rw [← heq, hself] at hbeq
        cases hbeq
    obtain ⟨rfl, rfl⟩ := hpos
    cases best
    simp only at hfb hthb heq
    rw [hfb, hthb, ← heq]

theorem best_split_returns_first_maximal_witness :
    (Platform.binary64 0).best_split [2, 2, 1, 1, 3, 3, 4, 4] [1, 0, 1, 0] 0 3 2
      = some ⟨0, Dbl.ofInt ((Platform.binary64 0).rd [2, 2, 1, 1, 3, 3, 4, 4] (1 * 2 + 0)),
          Dbl.fin (3002399751580331 / 18014398509481984)⟩ :=
  best_split_returns_first_maximal (Platform.binary64 0) (Platform.binary64_accurate 0)
    [2, 2, 1, 1, 3, 3, 4, 4] [1, 0, 1, 0] 0 3 2 0 1
    (Dbl.fin (3002399751580331 / 18014398509481984))
    (by intro i h1 h2; interval_cases i <;> decide)
    ⟨by decide, by decide, by decide, by decide⟩
    (by decide!) (by intro hn; cases hn)
    (by
      intro f i g hc hg
      obtain ⟨h1, h2, h3, h4⟩ := hc
      interval_cases f <;> interval_cases i <;>
        exact Dbl.not_gt_of_option (by decide!) hg)
    (by
      intro f i g hc hb hg
      obtain ⟨h1, h2, h3, h4⟩ := hc
      have hf : f = 0 := by unfold Before at hb; omega
      have hi : i = 0 := by unfold Before at hb; omega
      subst hf; subst hi
      rw [show (Platform.binary64 0).candidateGain [2, 2, 1, 1, 3, 3, 4, 4] [1, 0, 1, 0]
        0 3 2 0 0 = some (Dbl.fin 0) from by decide!] at hg
      cases hg
      decide!)

/-! ## Ranges on which every candidate has an empty side, on every platform -/

/-- C20 fails on the code: on two rows with the same feature value and different labels, with
`max_depth = 6`, on a binary64 machine where the read of `X[-1]` finds a positive value, `fit`
returns a tree of seven leaves and thirteen nodes for two rows: at every level both rows go right
and the left side is empty.  (When `X[-1]` is taken as undefined, `fit` has no result on this
input.) -/
theorem fit_more_leaves_than_rows :
    (Platform.binary64 1).fit new [5, 5] [0, 1] 2 1 6
      = some ⟨some
        (Node.decision (-1) (Dbl.fin 0) (Node.leaf (Dbl.fin 1))
        (Node.decision (-1) (Dbl.fin 0) (Node.leaf (Dbl.fin 1))
        (Node.decision (-1) (Dbl.fin 0) (Node.leaf (Dbl.fin 1))
        (Node.decision (-1) (Dbl.fin 0) (Node.leaf (Dbl.fin 1))
        (Node.decision (-1) (Dbl.fin 0) (Node.leaf (Dbl.fin 1))
        (Node.decision (-1) (Dbl.fin 0) (Node.leaf (Dbl.fin 1))
          (Node.leaf (Dbl.fin 1))))))))⟩ ∧
    ((Platform.binary64 1).fit new [5, 5] [0, 1] 2 1 6).map
      (fun t => t.root.map (fun n => (n.leafCount, n.nodeCount))) = some (some (7, 13)) ∧
    (Platform.binary64 1).leftRows [5, 5] 0 1 1 (-1) (Dbl.fin 0) = [] ∧
    (Platform.binary64 1).rightRows [5, 5] 0 1 1 (-1) (Dbl.fin 0) = [0, 1] ∧
    fit new [5, 5] [0, 1] 2 1 6 = none := by
  decide!

/-! ## The rounding on two data sets -/

/-- On the data of `main` the tree built with the binary64 rounding is the tree built with exact
arithmetic, and no read leaves the arrays. -/
theorem main_tree_binary64 :
    (Platform.binary64 0).fit new mainX mainY 10 3 3 = fit new mainX mainY 10 3 3 := by
  decide!

/-- The rounding decides between candidates whose exact gains are equal: on eight rows of one
column the candidates of row 0 (threshold 2) and of row 1 (threshold 1) have the exact gain 1/24,
and with exact arithmetic `best_split` returns the first, row 0; with the binary64 rounding the
gain of row 0 is 750599937895083 / 2^54 and the gain of row 1 is the greater
187649984473771 / 2^52, and `best_split` returns row 1. -/
theorem best_split_rounding_decides :
    (Platform.exact 0).best_split [2, 1, 3, 1, 2, 2, 2, 3] [0, 0, 0, 1, 0, 0, 1, 0] 0 7 1
      = some ⟨0, Dbl.fin 2, Dbl.fin (1 / 24)⟩ ∧
    (Platform.binary64 0).candidateGain [2, 1, 3, 1, 2, 2, 2, 3] [0, 0, 0, 1, 0, 0, 1, 0] 0 7 1 0 0
      = some (Dbl.fin (750599937895083 / 18014398509481984)) ∧
    (Platform.binary64 0).best_split [2, 1, 3, 1, 2, 2, 2, 3] [0, 0, 0, 1, 0, 0, 1, 0] 0 7 1
      = some ⟨0, Dbl.fin 1, Dbl.fin (187649984473771 / 4503599627370496)⟩ := by
  decide!

end DecisionTree
